import Mathlib

/-!
Verification of the linked-list engine and binary search tree from
`src/src/data_structures/linked_list.rs` and
`src/src/data_structures/binary_search_tree.rs` (repository monsterooo/rust-algo).

The linked list uses raw pointers (`NonNull<Node<T>>`), so the embedding makes
the heap explicit: addresses are natural numbers, the heap is a partial map
from addresses to nodes, and every pointer read or write of the Rust source is
translated into a lookup or update of that map.  The `u32` length counter is
modelled as `Nat` (the spec's "exact count of nodes"); the `i32` index of
`get` is modelled as `Int`.  A `panic!` in the source is modelled as
`Except.error s` where `s` is the (unchanged) state at the moment of the
panic; both panic sites of `insert_at_ith` / `delete_ith` occur before any
mutation, so the state carried by the error is always the input state.
A dereference of a pointer that is not in the heap would be undefined
behaviour in the source; the embedding maps those reads to the same failure
outcomes (they are unreachable on well-formed lists, which the theorems show).
-/

namespace RustAlgo

/-- Heap addresses of the pointer model. -/
abbrev Addr := Nat

/-- Node<T> from linked_list.rs: a value plus raw `next` and `prev` pointers. -/
structure Node (T : Type) where
  val : T
  next : Option Addr
  prev : Option Addr

/-- The explicit heap: which node (if any) lives at each address. -/
abbrev Heap (T : Type) := Addr → Option (Node T)

/-- Write an address of the heap (used for allocation and deallocation). -/
def hset {T : Type} (h : Heap T) (a : Addr) (n : Option (Node T)) : Heap T :=
  fun x => if x = a then n else h x

/-- Write through a pointer: update the node stored at `a`, if any.
A write through a dangling pointer (address not in the heap) is a no-op here;
it never happens on well-formed lists. -/
def hmodify {T : Type} (h : Heap T) (a : Addr) (f : Node T → Node T) : Heap T :=
  fun x => if x = a then (h x).map f else h x

/-- LinkedList<T> from linked_list.rs.  `fresh` is the allocator: the next
address handed out by `Box::new`; all live addresses are below it. -/
structure LinkedList (T : Type) where
  length : Nat
  head : Option Addr
  tail : Option Addr
  heap : Heap T
  fresh : Addr

/-- LinkedList::new(). -/
def newList {T : Type} : LinkedList T :=
  { length := 0, head := none, tail := none, heap := fun _ => none, fresh := 0 }

/-- LinkedList::insert_at_head (lines 54-76 of linked_list.rs). -/
def insertAtHead {T : Type} (l : LinkedList T) (obj : T) : LinkedList T :=
  let nodePtr := l.fresh
  let h1 := hset l.heap nodePtr (some { val := obj, next := l.head, prev := none })
  match l.head with
  | some headPtr =>
    let h2 := hmodify h1 headPtr (fun n => { n with prev := some nodePtr })
    { l with heap := h2, head := some nodePtr, length := l.length + 1, fresh := l.fresh + 1 }
  | none =>
    { l with heap := h1, head := some nodePtr, tail := some nodePtr,
             length := l.length + 1, fresh := l.fresh + 1 }

/-- LinkedList::insert_at_tail (lines 79-96 of linked_list.rs). -/
def insertAtTail {T : Type} (l : LinkedList T) (obj : T) : LinkedList T :=
  let nodePtr := l.fresh
  let h1 := hset l.heap nodePtr (some { val := obj, next := none, prev := l.tail })
  match l.tail with
  | some tailPtr =>
    let h2 := hmodify h1 tailPtr (fun n => { n with next := some nodePtr })
    { l with heap := h2, tail := some nodePtr, length := l.length + 1, fresh := l.fresh + 1 }
  | none =>
    { l with heap := h1, head := some nodePtr, tail := some nodePtr,
             length := l.length + 1, fresh := l.fresh + 1 }

/-- The locate loop `for _ in 0..index { match (*ith_node.as_ptr()).next { ... } }`
shared by insert_at_ith and delete_ith: walk `next` from address `a` for `k`
steps.  `none` is the `panic!("Index out of boundes.")` of the loop body (or a
dangling-pointer read, which is unreachable on well-formed lists). -/
def walkNext {T : Type} (h : Heap T) : Addr → Nat → Option Addr
  | a, 0 => some a
  | a, k + 1 =>
    match h a with
    | none => none
    | some n =>
      match n.next with
      | none => none
      | some b => walkNext h b k

/-- LinkedList::insert_at_ith (lines 99-139 of linked_list.rs).
`Except.error s` models `panic!("Index out of boundes.")` with the list in
state `s` when the panic fires (both panic sites precede every mutation, so
`s` is always the input list).  Note the silent `.ok l` no-insert outcome when
the located node's `prev` is absent, mirroring lines 130-136. -/
def insertAtIth {T : Type} (l : LinkedList T) (index : Nat) (obj : T) :
    Except (LinkedList T) (LinkedList T) :=
  if l.length < index then .error l
  else if index = 0 ∨ l.head = none then .ok (insertAtHead l obj)
  else if index = l.length then .ok (insertAtTail l obj)
  else
    match l.head with
    | none => .ok l
    | some headPtr =>
      match walkNext l.heap headPtr index with
      | none => .error l
      | some ithPtr =>
        match l.heap ithPtr with
        | none => .error l
        | some ithNode =>
          match ithNode.prev with
          | none => .ok l
          | some p =>
            let nodePtr := l.fresh
            let h1 := hset l.heap nodePtr
              (some { val := obj, next := some ithPtr, prev := ithNode.prev })
            let h2 := hmodify h1 p (fun n => { n with next := some nodePtr })
            let h3 := hmodify h2 ithPtr (fun n => { n with prev := some nodePtr })
            .ok { l with heap := h3, length := l.length + 1, fresh := l.fresh + 1 }

/-- LinkedList::delete_head (lines 142-157 of linked_list.rs).  Returns the
removed value (if any) together with the updated list; the freed node is
erased from the heap.  `length.checked_add_signed(-1).unwrap_or(0)` is exactly
truncated `Nat` subtraction. -/
def deleteHead {T : Type} (l : LinkedList T) : Option T × LinkedList T :=
  if l.length = 0 then (none, l)
  else
    match l.head with
    | none => (none, l)
    | some headPtr =>
      match l.heap headPtr with
      | none => (none, l)
      | some oldHead =>
        match oldHead.next with
        | some nextPtr =>
          let h1 := hmodify l.heap nextPtr (fun n => { n with prev := none })
          let h2 := hset h1 headPtr none
          (some oldHead.val,
           { l with heap := h2, head := oldHead.next, length := l.length - 1 })
        | none =>
          let h2 := hset l.heap headPtr none
          (some oldHead.val,
           { l with heap := h2, head := none, tail := none, length := l.length - 1 })

/-- LinkedList::delete_tail (lines 160-171 of linked_list.rs). -/
def deleteTail {T : Type} (l : LinkedList T) : Option T × LinkedList T :=
  match l.tail with
  | none => (none, l)
  | some tailPtr =>
    match l.heap tailPtr with
    | none => (none, l)
    | some oldTail =>
      match oldTail.prev with
      | some prevPtr =>
        let h1 := hmodify l.heap prevPtr (fun n => { n with next := none })
        let h2 := hset h1 tailPtr none
        (some oldTail.val,
         { l with heap := h2, tail := oldTail.prev, length := l.length - 1 })
      | none =>
        let h2 := hset l.heap tailPtr none
        (some oldTail.val,
         { l with heap := h2, head := none, tail := none, length := l.length - 1 })

/-- LinkedList::delete_ith (lines 174-210 of linked_list.rs).  As in the
source, the middle branch repairs the neighbours' links but never touches
`self.tail`. -/
def deleteIth {T : Type} (l : LinkedList T) (index : Nat) :
    Except (LinkedList T) (Option T × LinkedList T) :=
  if l.length < index then .error l
  else if index = 0 ∨ l.head = none then .ok (deleteHead l)
  else if l.length = index then .ok (deleteTail l)
  else
    match l.head with
    | none => .ok (none, l)
    | some headPtr =>
      match walkNext l.heap headPtr index with
      | none => .error l
      | some ithPtr =>
        match l.heap ithPtr with
        | none => .error l
        | some oldIth =>
          let h1 := match oldIth.prev with
            | some prevPtr => hmodify l.heap prevPtr (fun n => { n with next := oldIth.next })
            | none => l.heap
          let h2 := match oldIth.next with
            | some nextPtr => hmodify h1 nextPtr (fun n => { n with prev := oldIth.prev })
            | none => h1
          let h3 := hset h2 ithPtr none
          .ok (some oldIth.val, { l with heap := h3, length := l.length - 1 })

/-- LinkedList::get_ith_node (lines 216-226 of linked_list.rs).  The source
recursion is bounded only by the chain itself; the embedding adds explicit
fuel, and the theorems show the result is independent of the fuel once it
exceeds the list length (so the source recursion terminates). -/
def getIthNode {T : Type} (h : Heap T) : Nat → Option Addr → Int → Option Addr
  | 0, _, _ => none
  | _ + 1, none, _ => none
  | fuel + 1, some nextPtr, index =>
    if index = 0 then some nextPtr
    else
      match h nextPtr with
      | none => none
      | some n => getIthNode h fuel n.next (index - 1)

/-- LinkedList::get (lines 212-214 of linked_list.rs). -/
def getVal {T : Type} (l : LinkedList T) (index : Int) : Option T :=
  (getIthNode l.heap (l.length + 1) l.head index).bind fun a =>
    (l.heap a).map (fun n => n.val)

/-- The Drop loop `while self.delete_head().is_some() {}` (lines 229-234),
with explicit fuel; returns the final state and the number of successful
`delete_head` calls performed. -/
def dropLoop {T : Type} : Nat → LinkedList T → LinkedList T × Nat
  | 0, l => (l, 0)
  | fuel + 1, l =>
    match deleteHead l with
    | (none, l') => (l', 0)
    | (some _, l') =>
      let r := dropLoop fuel l'
      (r.1, r.2 + 1)

/-- Drop for LinkedList, run with enough fuel (`length + 1` always suffices
on well-formed lists, as the theorems show). -/
def dropList {T : Type} (l : LinkedList T) : LinkedList T × Nat :=
  dropLoop (l.length + 1) l

/-! ### Representation predicate

`chainSeg h pr cur cells prOut curOut` states that, in heap `h`, starting at
pointer `cur` whose incoming back-pointer is `pr`, the chain spells exactly
the (address, value) pairs `cells`, doubly linked, and that after the segment
the running back-pointer is `prOut` and the forward pointer is `curOut`. -/
def chainSeg {T : Type} (h : Heap T) :
    Option Addr → Option Addr → List (Addr × T) → Option Addr → Option Addr → Prop
  | pr, cur, [], prOut, curOut => pr = prOut ∧ cur = curOut
  | pr, cur, c :: rest, prOut, curOut =>
    cur = some c.1 ∧
      ∃ n, h c.1 = some n ∧ n.val = c.2 ∧ n.prev = pr ∧
        chainSeg h (some c.1) n.next rest prOut curOut

/-- The list invariants (spec §3, invariants 1-4) relative to an explicit
cell list: the chain from `head` spells `cells` and ends at `none`, the
length field counts the cells, `tail` is the last cell's address, all cell
addresses are below the allocator mark and are pairwise distinct. -/
structure ModelsA {T : Type} (l : LinkedList T) (cells : List (Addr × T)) : Prop where
  chain_ok : chainSeg l.heap none l.head cells ((cells.map Prod.fst).getLast?) none
  length_ok : l.length = cells.length
  tail_ok : l.tail = (cells.map Prod.fst).getLast?
  fresh_ok : ∀ c ∈ cells, c.1 < l.fresh
  nodup_ok : (cells.map Prod.fst).Nodup

/-- The list represents the value sequence `vs` (for some choice of
addresses). -/
def Models {T : Type} (l : LinkedList T) (vs : List T) : Prop :=
  ∃ cells, ModelsA l cells ∧ cells.map Prod.snd = vs

/-- Insertion at an index of a plain Lean list, the abstract counterpart of
`insert_at_ith`. -/
def insertIdxFn {T : Type} : Nat → T → List T → List T
  | 0, v, xs => v :: xs
  | _ + 1, v, [] => [v]
  | n + 1, v, x :: xs => x :: insertIdxFn n v xs

/-! ### Binary search tree (binary_search_tree.rs) -/

/-- BinarySearchTree<T> from binary_search_tree.rs: an optional key plus
optional boxed children. -/
inductive BinarySearchTree (T : Type) where
  | mk (value : Option T) (left : Option (BinarySearchTree T))
       (right : Option (BinarySearchTree T))

/-- BinarySearchTree::new(). -/
def BinarySearchTree.newTree {T : Type} : BinarySearchTree T := .mk none none none

/-- BinarySearchTree::search (lines 25-43 of binary_search_tree.rs);
`key.cmp(value)` is `compare key v`. -/
def BinarySearchTree.search {T : Type} [LinearOrder T] : BinarySearchTree T → T → Bool
  | .mk value left right, v =>
    match value with
    | some key =>
      match compare key v with
      | .eq => true
      | .gt =>
        match left with
        | some node => node.search v
        | none => false
      | .lt =>
        match right with
        | some node => node.search v
        | none => false
    | none => false

/-- BinarySearchTree::insert (lines 45-68 of binary_search_tree.rs);
`value < *key` sends the new value left, otherwise (including ties) right. -/
def BinarySearchTree.insert {T : Type} [LinearOrder T] :
    BinarySearchTree T → T → BinarySearchTree T
  | .mk value left right, v =>
    match value with
    | none => .mk (some v) left right
    | some key =>
      if v < key then
        match left with
        | some node => .mk (some key) (some (node.insert v)) right
        | none => .mk (some key) (some (.mk (some v) none none)) right
      else
        match right with
        | some node => .mk (some key) left (some (node.insert v))
        | none => .mk (some key) left (some (.mk (some v) none none))

/-- All values stored in a tree, in symmetric order. -/
def BinarySearchTree.elems {T : Type} : BinarySearchTree T → List T
  | .mk value left right =>
    (match left with | some node => node.elems | none => []) ++
    (match value with | some key => [key] | none => []) ++
    (match right with | some node => node.elems | none => [])

/-- Search-tree well-formedness as maintained by `insert`: a valueless node
has no children, left members are strictly below the key, right members are
at or above it. -/
def BinarySearchTree.WellFormed {T : Type} [LinearOrder T] : BinarySearchTree T → Prop
  | .mk value left right =>
    match value with
    | none => left = none ∧ right = none
    | some key =>
      (match left with
       | some node => (∀ x ∈ node.elems, x < key) ∧ node.WellFormed
       | none => True) ∧
      (match right with
       | some node => (∀ x ∈ node.elems, key ≤ x) ∧ node.WellFormed
       | none => True)

/-- Insert a whole sequence of values, left to right. -/
def BinarySearchTree.insertAll {T : Type} [LinearOrder T]
    (t : BinarySearchTree T) (vs : List T) : BinarySearchTree T :=
  vs.foldl BinarySearchTree.insert t

/-! ### Chain lemmas -/

theorem chainSeg_nil_iff {T : Type} {h : Heap T} {pr cur prO curO : Option Addr} :
    chainSeg h pr cur [] prO curO ↔ (pr = prO ∧ cur = curO) := Iff.rfl

theorem chainSeg_cons_iff {T : Type} {h : Heap T} {pr cur prO curO : Option Addr}
    {c : Addr × T} {rest : List (Addr × T)} :
    chainSeg h pr cur (c :: rest) prO curO ↔
      (cur = some c.1 ∧ ∃ n, h c.1 = some n ∧ n.val = c.2 ∧ n.prev = pr ∧
        chainSeg h (some c.1) n.next rest prO curO) := Iff.rfl

/-- A chain that starts at a null pointer is empty. -/
theorem chainSeg_none {T : Type} {h : Heap T} {cells : List (Addr × T)}
    {pr prO curO : Option Addr} (hch : chainSeg h pr none cells prO curO) :
    cells = [] := by
  cases cells with
  | nil => rfl
  | cons c rest => exact absurd hch.1 (by simp)

/-- A chain only inspects the heap at its own cells' addresses. -/
theorem chainSeg_congr {T : Type} {h h' : Heap T} {cells : List (Addr × T)}
    {pr cur prO curO : Option Addr}
    (hag : ∀ c ∈ cells, h' c.1 = h c.1)
    (hch : chainSeg h pr cur cells prO curO) : chainSeg h' pr cur cells prO curO := by
  induction cells generalizing pr cur with
  | nil => exact hch
  | cons c rest ih =>
    obtain ⟨hcur, n, hn, hv, hp, hrest⟩ := hch
    exact ⟨hcur, n, by rw [hag c (List.mem_cons_self c rest)]; exact hn, hv, hp,
      ih (fun c' hc' => hag c' (List.mem_cons_of_mem c hc')) hrest⟩

/-- Splitting a chain at a list append. -/
theorem chainSeg_append {T : Type} {h : Heap T} :
    ∀ (xs : List (Addr × T)) (ys : List (Addr × T)) (pr cur prO curO : Option Addr),
      chainSeg h pr cur (xs ++ ys) prO curO ↔
        ∃ prM curM, chainSeg h pr cur xs prM curM ∧ chainSeg h prM curM ys prO curO := by
  intro xs
  induction xs with
  | nil =>
    intro ys pr cur prO curO
    constructor
    · intro hch; exact ⟨pr, cur, ⟨rfl, rfl⟩, hch⟩
    · rintro ⟨prM, curM, ⟨rfl, rfl⟩, hch⟩; exact hch
  | cons c rest ih =>
    intro ys pr cur prO curO
    constructor
    · rintro ⟨hcur, n, hn, hv, hp, hch⟩
      obtain ⟨prM, curM, h1, h2⟩ := (ih ys _ _ _ _).1 hch
      exact ⟨prM, curM, ⟨hcur, n, hn, hv, hp, h1⟩, h2⟩
    · rintro ⟨prM, curM, ⟨hcur, n, hn, hv, hp, h1⟩, h2⟩
      exact ⟨hcur, n, hn, hv, hp, (ih ys _ _ _ _).2 ⟨prM, curM, h1, h2⟩⟩

/-- A nonempty chain's outgoing back-pointer is its last address. -/
theorem chainSeg_prOut {T : Type} {h : Heap T} :
    ∀ (cells : List (Addr × T)) (pr cur prO curO : Option Addr),
      chainSeg h pr cur cells prO curO → cells ≠ [] →
      prO = (cells.map Prod.fst).getLast? := by
  intro cells
  induction cells with
  | nil => intro _ _ _ _ _ hne; exact absurd rfl hne
  | cons c rest ih =>
    intro pr cur prO curO hch _
    obtain ⟨hcur, n, hn, hv, hp, hrest⟩ := hch
    cases rest with
    | nil =>
      obtain ⟨hpr, -⟩ := hrest
      simp [hpr.symm]
    | cons r rest' =>
      have := ih _ _ _ _ hrest (by simp)
      simpa [List.getLast?_cons_cons] using this

/-- Values of chain cells are read back from the heap. -/
theorem chainSeg_mem {T : Type} {h : Heap T} :
    ∀ (cells : List (Addr × T)) (pr cur prO curO : Option Addr),
      chainSeg h pr cur cells prO curO →
      ∀ c ∈ cells, ∃ n, h c.1 = some n ∧ n.val = c.2 := by
  intro cells
  induction cells with
  | nil => intro _ _ _ _ _ c hc; exact absurd hc (by simp)
  | cons c' rest ih =>
    intro pr cur prO curO hch c hc
    obtain ⟨hcur, n, hn, hv, hp, hrest⟩ := hch
    rcases List.mem_cons.1 hc with rfl | hc'
    · exact ⟨n, hn, hv⟩
    · exact ih _ _ _ _ hrest c hc'

/-- The locate loop of `insert_at_ith` / `delete_ith` lands on the k-th cell. -/
theorem chainSeg_walkNext {T : Type} {h : Heap T} :
    ∀ (cells : List (Addr × T)) (pr : Option Addr) (a : Addr) (prO curO : Option Addr),
      chainSeg h pr (some a) cells prO curO →
      ∀ k, k < cells.length → walkNext h a k = (cells.map Prod.fst).get? k := by
  intro cells
  induction cells with
  | nil => intro _ _ _ _ _ k hk; exact absurd hk (by simp)
  | cons c rest ih =>
    intro pr a prO curO hch k hk
    obtain ⟨hcur, n, hn, hv, hp, hrest⟩ := hch
    obtain rfl : a = c.1 := by injection hcur
    cases k with
    | zero => simp [walkNext]
    | succ k =>
      have hk' : k < rest.length := by simpa using hk
      cases rest with
      | nil => exact absurd hk' (by simp)
      | cons r rest' =>
        have hnext : n.next = some r.1 := hrest.1
        rw [hnext] at hrest
        simp only [walkNext, hn, hnext]
        exact ih _ _ _ _ hrest k hk'

/-! ### Heap update lemmas -/

theorem hset_self {T : Type} (h : Heap T) (a : Addr) (n : Option (Node T)) :
    hset h a n a = n := if_pos rfl

theorem hset_other {T : Type} (h : Heap T) {a x : Addr} (n : Option (Node T))
    (hx : x ≠ a) : hset h a n x = h x := if_neg hx

theorem hmodify_self {T : Type} (h : Heap T) (a : Addr) (f : Node T → Node T) :
    hmodify h a f a = (h a).map f := if_pos rfl

theorem hmodify_other {T : Type} (h : Heap T) {a x : Addr} (f : Node T → Node T)
    (hx : x ≠ a) : hmodify h a f x = h x := if_neg hx

/-! ### The representation is established and preserved -/

theorem modelsA_newList {T : Type} : ModelsA (newList (T := T)) [] := by
  refine ⟨⟨rfl, rfl⟩, rfl, rfl, ?_, List.nodup_nil⟩
  intro c hc
  exact absurd hc (List.not_mem_nil c)

/-- insert_at_head prepends a fresh cell. -/
theorem modelsA_insertAtHead {T : Type} {l : LinkedList T} {cells : List (Addr × T)}
    (hm : ModelsA l cells) (v : T) :
    ModelsA (insertAtHead l v) ((l.fresh, v) :: cells) := by
  obtain ⟨hch, hlen, htail, hfr, hnd⟩ := hm
  cases hhead : l.head with
  | none =>
    rw [hhead] at hch
    obtain rfl : cells = [] := chainSeg_none hch
    have e1 : (insertAtHead l v).heap =
        hset l.heap l.fresh (some { val := v, next := none, prev := none }) := by
      simp [insertAtHead, hhead]
    have e2 : (insertAtHead l v).head = some l.fresh := by simp [insertAtHead, hhead]
    have e3 : (insertAtHead l v).tail = some l.fresh := by simp [insertAtHead, hhead]
    have e4 : (insertAtHead l v).length = l.length + 1 := by simp [insertAtHead, hhead]
    have e5 : (insertAtHead l v).fresh = l.fresh + 1 := by simp [insertAtHead, hhead]
    refine ⟨?_, ?_, ?_, ?_, by simp⟩
    · rw [e1, e2]
      exact ⟨rfl, { val := v, next := none, prev := none },
        hset_self _ _ _, rfl, rfl, rfl, rfl⟩
    · rw [e4]; simpa using hlen
    · rw [e3]; simp
    · intro c hc
      simp only [List.mem_singleton] at hc
      subst hc
      rw [e5]; simp
  | some a0 =>
    cases cells with
    | nil =>
      rw [hhead] at hch
      exact absurd hch.2 (by simp)
    | cons c0 rest =>
      rw [hhead] at hch
      obtain ⟨hcur, n0, hn0, hv0, hp0, hrest⟩ := hch
      obtain rfl : a0 = c0.1 := by injection hcur
      have hc0lt : c0.1 < l.fresh := hfr c0 (List.mem_cons_self c0 rest)
      have hc0ne : c0.1 ≠ l.fresh := Nat.ne_of_lt hc0lt
      have hfne : l.fresh ≠ c0.1 := Ne.symm hc0ne
      have e1 : (insertAtHead l v).heap = hmodify
          (hset l.heap l.fresh (some { val := v, next := some c0.1, prev := none }))
          c0.1 (fun n => { n with prev := some l.fresh }) := by
        simp [insertAtHead, hhead]
      have e2 : (insertAtHead l v).head = some l.fresh := by simp [insertAtHead, hhead]
      have e3 : (insertAtHead l v).tail = l.tail := by simp [insertAtHead, hhead]
      have e4 : (insertAtHead l v).length = l.length + 1 := by simp [insertAtHead, hhead]
      have e5 : (insertAtHead l v).fresh = l.fresh + 1 := by simp [insertAtHead, hhead]
      refine ⟨?_, ?_, ?_, ?_, ?_⟩
      · rw [e1, e2]
        refine ⟨rfl, { val := v, next := some c0.1, prev := none }, ?_, rfl, rfl, ?_⟩
        · show hmodify _ c0.1 _ l.fresh = _
          rw [hmodify_other _ _ hfne, hset_self]
        · refine ⟨rfl, { n0 with prev := some l.fresh }, ?_, hv0, rfl, ?_⟩
          · show hmodify _ c0.1 _ c0.1 = _
            rw [hmodify_self, hset_other _ _ hc0ne, hn0]
            rfl
          · have hagree : ∀ c ∈ rest,
                hmodify (hset l.heap l.fresh
                    (some { val := v, next := some c0.1, prev := none })) c0.1
                  (fun n => { n with prev := some l.fresh }) c.1 = l.heap c.1 := by
              intro c hc
              have hlt : c.1 < l.fresh := hfr c (List.mem_cons_of_mem c0 hc)
              have hne1 : c.1 ≠ l.fresh := Nat.ne_of_lt hlt
              have hne2 : c.1 ≠ c0.1 := by
                intro heq
                have : c0.1 ∈ rest.map Prod.fst := heq ▸ List.mem_map_of_mem Prod.fst hc
                simp only [List.map_cons, List.nodup_cons] at hnd
                exact hnd.1 this
              rw [hmodify_other _ _ hne2, hset_other _ _ hne1]
            have hch2 := chainSeg_congr hagree hrest
            have hlast : ((c0 :: rest).map Prod.fst).getLast? =
                (((l.fresh, v) :: c0 :: rest).map Prod.fst).getLast? := by
              simp [List.getLast?_cons_cons]
            rw [hlast] at hch2
            exact hch2
      · rw [e4]
        simp only [List.length_cons] at hlen ⊢
        omega
      · rw [e3, htail]
        simp [List.getLast?_cons_cons]
      · intro c hc
        rw [e5]
        rcases List.mem_cons.1 hc with rfl | hc'
        · simp
        · exact Nat.lt_succ_of_lt (hfr c hc')
      · simp only [List.map_cons, List.nodup_cons]
        constructor
        · intro hmem
          simp only [List.mem_cons] at hmem
          rcases hmem with heq | hmem'
          · exact absurd heq.symm hc0ne
          · obtain ⟨c, hc, hceq⟩ := List.mem_map.1 hmem'
            exact absurd hceq (Nat.ne_of_lt (hfr c (List.mem_cons_of_mem c0 hc)))
        · simpa using hnd

/-- insert_at_tail appends a fresh cell. -/
theorem modelsA_insertAtTail {T : Type} {l : LinkedList T} {cells : List (Addr × T)}
    (hm : ModelsA l cells) (v : T) :
    ModelsA (insertAtTail l v) (cells ++ [(l.fresh, v)]) := by
  obtain ⟨hch, hlen, htail, hfr, hnd⟩ := hm
  rcases cells.eq_nil_or_concat with rfl | ⟨init, clast, rfl⟩
  · have htl : l.tail = none := by simpa using htail
    have hhead : l.head = none := hch.2
    have e1 : (insertAtTail l v).heap =
        hset l.heap l.fresh (some { val := v, next := none, prev := none }) := by
      simp [insertAtTail, htl]
    have e2 : (insertAtTail l v).head = some l.fresh := by simp [insertAtTail, htl]
    have e3 : (insertAtTail l v).tail = some l.fresh := by simp [insertAtTail, htl]
    have e4 : (insertAtTail l v).length = l.length + 1 := by simp [insertAtTail, htl]
    have e5 : (insertAtTail l v).fresh = l.fresh + 1 := by simp [insertAtTail, htl]
    refine ⟨?_, ?_, ?_, ?_, by simp⟩
    · rw [e1, e2]
      exact ⟨rfl, { val := v, next := none, prev := none },
        hset_self _ _ _, rfl, rfl, rfl, rfl⟩
    · rw [e4]; simpa using hlen
    · rw [e3]; simp
    · intro c hc
      simp only [List.nil_append, List.mem_singleton] at hc
      subst hc
      rw [e5]; simp
  · simp only [List.concat_eq_append] at hch hlen htail hfr hnd ⊢
    have hprO : ((init ++ [clast]).map Prod.fst).getLast? = some clast.1 := by
      simp
    have htailc : l.tail = some clast.1 := by rw [htail, hprO]
    rw [hprO] at hch
    obtain ⟨prM, curM, hinit, hlastseg⟩ := (chainSeg_append _ _ _ _ _ _).1 hch
    obtain ⟨hcurM, nt, hnt, hvt, hpt, hnil⟩ := hlastseg
    obtain ⟨-, hnext⟩ := hnil
    have hclt : clast.1 < l.fresh :=
      hfr clast (List.mem_append_right _ (List.mem_singleton_self clast))
    have hclne : clast.1 ≠ l.fresh := Nat.ne_of_lt hclt
    have hfnecl : l.fresh ≠ clast.1 := Ne.symm hclne
    have hclastnotin : clast.1 ∉ init.map Prod.fst := by
      have h' := hnd
      simp only [List.map_append, List.map_cons, List.map_nil, List.nodup_append] at h'
      intro hmem
      exact h'.2.2 hmem (by simp)
    have e1 : (insertAtTail l v).heap = hmodify
        (hset l.heap l.fresh (some { val := v, next := none, prev := some clast.1 }))
        clast.1 (fun n => { n with next := some l.fresh }) := by
      simp [insertAtTail, htailc]
    have e2 : (insertAtTail l v).head = l.head := by simp [insertAtTail, htailc]
    have e3 : (insertAtTail l v).tail = some l.fresh := by simp [insertAtTail, htailc]
    have e4 : (insertAtTail l v).length = l.length + 1 := by simp [insertAtTail, htailc]
    have e5 : (insertAtTail l v).fresh = l.fresh + 1 := by simp [insertAtTail, htailc]
    refine ⟨?_, ?_, ?_, ?_, ?_⟩
    · rw [e1, e2]
      have hgl : (((init ++ [clast]) ++ [(l.fresh, v)]).map Prod.fst).getLast? =
          some l.fresh := by simp
      rw [hgl, List.append_assoc]
      refine (chainSeg_append _ _ _ _ _ _).2 ⟨prM, some clast.1, ?_, ?_⟩
      · refine chainSeg_congr ?_ (hcurM ▸ hinit)
        intro c hc
        have hlt : c.1 < l.fresh := hfr c (List.mem_append_left _ hc)
        have hne1 : c.1 ≠ l.fresh := Nat.ne_of_lt hlt
        have hne2 : c.1 ≠ clast.1 := by
          intro heq
          exact hclastnotin (heq ▸ List.mem_map_of_mem Prod.fst hc)
        rw [hmodify_other _ _ hne2, hset_other _ _ hne1]
      · refine ⟨rfl, { nt with next := some l.fresh }, ?_, hvt, hpt, ?_⟩
        · show hmodify _ clast.1 _ clast.1 = _
          rw [hmodify_self, hset_other _ _ hclne, hnt]
          rfl
        · refine ⟨rfl, { val := v, next := none, prev := some clast.1 }, ?_, rfl, rfl,
            rfl, rfl⟩
          show hmodify _ clast.1 _ l.fresh = _
          rw [hmodify_other _ _ hfnecl, hset_self]
    · rw [e4]
      simp only [List.length_append, List.length_cons, List.length_nil] at hlen ⊢
      omega
    · rw [e3]; simp
    · intro c hc
      rw [e5]
      rcases List.mem_append.1 hc with hc' | hc'
      · exact Nat.lt_succ_of_lt (hfr c hc')
      · simp only [List.mem_singleton] at hc'
        subst hc'
        exact Nat.lt_succ_self _
    · have hmapeq : (((init ++ [clast]) ++ [(l.fresh, v)]).map Prod.fst)
          = ((init ++ [clast]).map Prod.fst) ++ [l.fresh] := by simp
      rw [hmapeq]
      refine hnd.append (by simp) ?_
      intro a ha hb
      simp only [List.mem_singleton] at hb
      subst hb
      obtain ⟨c, hc, hceq⟩ := List.mem_map.1 ha
      exact absurd hceq (Nat.ne_of_lt (hfr c hc))

/-- delete_head removes the first cell: returned value, new model, the freed
address, a frame condition for untouched addresses, and the new head. -/
theorem deleteHead_modelsA {T : Type} {l : LinkedList T} {c0 : Addr × T}
    {cells : List (Addr × T)} (hm : ModelsA l (c0 :: cells)) :
    (deleteHead l).1 = some c0.2 ∧
    ModelsA (deleteHead l).2 cells ∧
    (deleteHead l).2.heap c0.1 = none ∧
    (∀ x, x ∉ ((c0 :: cells).map Prod.fst) → (deleteHead l).2.heap x = l.heap x) ∧
    (deleteHead l).2.length = l.length - 1 ∧
    (deleteHead l).2.fresh = l.fresh ∧
    (∃ n0, l.heap c0.1 = some n0 ∧ (deleteHead l).2.head = n0.next) := by
  obtain ⟨hch, hlen, htail, hfr, hnd⟩ := hm
  obtain ⟨hcur, n0, hn0, hv0, hp0, hrest⟩ := hch
  have hlne : l.length ≠ 0 := by
    rw [hlen]; simp
  cases cells with
  | nil =>
    obtain ⟨-, hnx⟩ := hrest
    have e0 : deleteHead l =
        (some n0.val,
         { l with heap := hset l.heap c0.1 none, head := none, tail := none,
                  length := l.length - 1 }) := by
      rw [deleteHead, if_neg hlne]
      simp only [hcur, hn0, hnx]
    have ev : (deleteHead l).1 = some n0.val := by rw [e0]
    have eh : (deleteHead l).2.heap = hset l.heap c0.1 none := by rw [e0]
    have ehd : (deleteHead l).2.head = none := by rw [e0]
    have etl : (deleteHead l).2.tail = none := by rw [e0]
    have eln : (deleteHead l).2.length = l.length - 1 := by rw [e0]
    have efr : (deleteHead l).2.fresh = l.fresh := by rw [e0]
    refine ⟨by rw [ev, hv0], ⟨?_, ?_, ?_, by simp, by simp⟩, ?_, ?_, eln, efr,
      n0, hn0, by rw [ehd, hnx]⟩
    · rw [ehd]
      exact ⟨rfl, rfl⟩
    · rw [eln]
      simp only [List.length_cons, List.length_nil] at hlen
      simp [hlen]
    · rw [etl]
      simp
    · rw [eh]
      exact hset_self _ _ _
    · intro x hx
      simp only [List.map_cons, List.map_nil, List.mem_singleton] at hx
      rw [eh]
      exact hset_other _ _ hx
  | cons c1 rest =>
    have hnx : n0.next = some c1.1 := hrest.1
    obtain ⟨-, n1, hn1, hv1, hp1, hrest1⟩ := hrest
    have hc1ne : c1.1 ≠ c0.1 := by
      intro heq
      simp only [List.map_cons, List.nodup_cons] at hnd
      exact hnd.1 (by simp [heq.symm])
    have e0 : deleteHead l =
        (some n0.val,
         { l with heap := hset (hmodify l.heap c1.1 (fun n => { n with prev := none }))
                    c0.1 none,
                  head := n0.next, length := l.length - 1 }) := by
      rw [deleteHead, if_neg hlne]
      simp only [hcur, hn0, hnx]
    have ev : (deleteHead l).1 = some n0.val := by rw [e0]
    have eh : (deleteHead l).2.heap =
        hset (hmodify l.heap c1.1 (fun n => { n with prev := none })) c0.1 none := by
      rw [e0]
    have ehd : (deleteHead l).2.head = n0.next := by rw [e0]
    have etl : (deleteHead l).2.tail = l.tail := by rw [e0]
    have eln : (deleteHead l).2.length = l.length - 1 := by rw [e0]
    have efr : (deleteHead l).2.fresh = l.fresh := by rw [e0]
    have hprO : ((c0 :: c1 :: rest).map Prod.fst).getLast? =
        ((c1 :: rest).map Prod.fst).getLast? := by
      simp [List.getLast?_cons_cons]
    refine ⟨by rw [ev, hv0], ⟨?_, ?_, ?_, ?_, ?_⟩, ?_, ?_, eln, efr, n0, hn0, ehd⟩
    · rw [ehd, eh, hnx]
      refine ⟨rfl, { n1 with prev := none }, ?_, hv1, rfl, ?_⟩
      · rw [hset_other _ _ hc1ne, hmodify_self, hn1]
        rfl
      · rw [← hprO]
        refine chainSeg_congr ?_ hrest1
        intro c hc
        have hneq0 : c.1 ≠ c0.1 := by
          intro heq
          simp only [List.map_cons, List.nodup_cons] at hnd
          exact hnd.1 (by
            simp only [List.mem_cons]
            exact Or.inr (heq ▸ List.mem_map_of_mem Prod.fst hc))
        have hneq1 : c.1 ≠ c1.1 := by
          intro heq
          simp only [List.map_cons, List.nodup_cons] at hnd
          exact hnd.2.1 (heq ▸ List.mem_map_of_mem Prod.fst hc)
        rw [hset_other _ _ hneq0, hmodify_other _ _ hneq1]
    · rw [eln]
      simp only [List.length_cons] at hlen ⊢
      omega
    · rw [etl, htail, hprO]
    · intro c hc
      rw [efr]
      exact hfr c (List.mem_cons_of_mem c0 hc)
    · simp only [List.map_cons, List.nodup_cons] at hnd ⊢
      exact hnd.2
    · rw [eh]
      exact hset_self _ _ _
    · intro x hx
      simp only [List.map_cons, List.mem_cons] at hx
      push_neg at hx
      rw [eh, hset_other _ _ hx.1, hmodify_other _ _ hx.2.1]

/-- delete_tail removes the last cell. -/
theorem deleteTail_modelsA {T : Type} {l : LinkedList T} {cells : List (Addr × T)}
    {ct : Addr × T} (hm : ModelsA l (cells ++ [ct])) :
    (deleteTail l).1 = some ct.2 ∧
    ModelsA (deleteTail l).2 cells ∧
    (deleteTail l).2.length = l.length - 1 ∧
    (deleteTail l).2.fresh = l.fresh := by
  obtain ⟨hch, hlen, htail, hfr, hnd⟩ := hm
  have hprO : ((cells ++ [ct]).map Prod.fst).getLast? = some ct.1 := by simp
  have htailc : l.tail = some ct.1 := by rw [htail, hprO]
  rw [hprO] at hch
  obtain ⟨prM, curM, hinit, hlastseg⟩ := (chainSeg_append _ _ _ _ _ _).1 hch
  obtain ⟨hcurM, nt, hnt, hvt, hpt, hnil⟩ := hlastseg
  obtain ⟨-, hnx⟩ := hnil
  have hctnotin : ct.1 ∉ cells.map Prod.fst := by
    have h' := hnd
    simp only [List.map_append, List.map_cons, List.map_nil, List.nodup_append] at h'
    intro hmem
    exact h'.2.2 hmem (by simp)
  cases prM with
  | none =>
    obtain rfl : cells = [] := by
      cases cells with
      | nil => rfl
      | cons c cs =>
        have := chainSeg_prOut _ _ _ _ _ hinit (by simp)
        have hnil : (c :: cs).map Prod.fst = [] := List.getLast?_eq_none_iff.mp this.symm
        exact absurd hnil (by simp)
    have hh : l.head = some ct.1 := hcurM ▸ hinit.2
    have e0 : deleteTail l =
        (some nt.val,
         { l with heap := hset l.heap ct.1 none, head := none, tail := none,
                  length := l.length - 1 }) := by
      rw [deleteTail]
      simp only [htailc, hnt, hpt]
    have ev : (deleteTail l).1 = some nt.val := by rw [e0]
    have eh : (deleteTail l).2.heap = hset l.heap ct.1 none := by rw [e0]
    have ehd : (deleteTail l).2.head = none := by rw [e0]
    have etl : (deleteTail l).2.tail = none := by rw [e0]
    have eln : (deleteTail l).2.length = l.length - 1 := by rw [e0]
    have efr : (deleteTail l).2.fresh = l.fresh := by rw [e0]
    refine ⟨by rw [ev, hvt], ⟨?_, ?_, ?_, by simp, by simp⟩, eln, efr⟩
    · rw [ehd]
      exact ⟨rfl, rfl⟩
    · rw [eln]
      simp only [List.nil_append, List.length_cons, List.length_nil] at hlen
      simp [hlen]
    · rw [etl]
      simp
  | some p =>
    rcases cells.eq_nil_or_concat with rfl | ⟨init2, cp, rfl⟩
    · exact absurd hinit.1 (by simp)
    · simp only [List.concat_eq_append] at hinit hlen htail hfr hnd hctnotin ⊢
      have hplast : (some p : Option Addr) = ((init2 ++ [cp]).map Prod.fst).getLast? :=
        chainSeg_prOut _ _ _ _ _ hinit (by simp)
      have hpeq : p = cp.1 := by
        rw [show ((init2 ++ [cp]).map Prod.fst).getLast? = some cp.1 by simp] at hplast
        injection hplast
      subst hpeq
      obtain ⟨prI, curI, hinit2, hcpseg⟩ := (chainSeg_append _ _ _ _ _ _).1 hinit
      obtain ⟨hcurI, np, hnp, hvp, hpp, hnil2⟩ := hcpseg
      obtain ⟨-, hnxp⟩ := hnil2
      have hcpnotin : cp.1 ∉ init2.map Prod.fst := by
        have h' := hnd
        simp only [List.map_append, List.map_cons, List.map_nil, List.append_assoc,
          List.nodup_append] at h'
        intro hmem
        exact h'.2.2 hmem (by simp)
      have hcpct : cp.1 ≠ ct.1 := by
        intro heq
        exact hctnotin (heq ▸ (by simp : cp.1 ∈ (init2 ++ [cp]).map Prod.fst))
      have e0 : deleteTail l =
          (some nt.val,
           { l with
               heap := hset (hmodify l.heap cp.1 (fun n => { n with next := none }))
                 ct.1 none,
               tail := some cp.1, length := l.length - 1 }) := by
        rw [deleteTail]
        simp only [htailc, hnt, hpt]
      have ev : (deleteTail l).1 = some nt.val := by rw [e0]
      have eh : (deleteTail l).2.heap =
          hset (hmodify l.heap cp.1 (fun n => { n with next := none })) ct.1 none := by
        rw [e0]
      have ehd : (deleteTail l).2.head = l.head := by rw [e0]
      have etl : (deleteTail l).2.tail = some cp.1 := by rw [e0]
      have eln : (deleteTail l).2.length = l.length - 1 := by rw [e0]
      have efr : (deleteTail l).2.fresh = l.fresh := by rw [e0]
      refine ⟨by rw [ev, hvt], ⟨?_, ?_, ?_, ?_, ?_⟩, eln, efr⟩
      · rw [eh, ehd, show (((init2 ++ [cp]).map Prod.fst).getLast?) = some cp.1 by simp]
        refine (chainSeg_append _ _ _ _ _ _).2 ⟨prI, some cp.1, ?_, ?_⟩
        · refine chainSeg_congr ?_ (hcurI ▸ hinit2)
          intro c hc
          have hne1 : c.1 ≠ ct.1 := by
            intro heq
            exact hctnotin (heq ▸ List.mem_map_of_mem Prod.fst
              (List.mem_append_left _ hc))
          have hne2 : c.1 ≠ cp.1 := by
            intro heq
            exact hcpnotin (heq ▸ List.mem_map_of_mem Prod.fst hc)
          rw [hset_other _ _ hne1, hmodify_other _ _ hne2]
        · refine ⟨rfl, { np with next := none }, ?_, hvp, hpp, rfl, rfl⟩
          rw [hset_other _ _ hcpct, hmodify_self, hnp]
          rfl
      · rw [eln]
        simp only [List.append_assoc, List.length_append, List.length_cons,
          List.length_nil] at hlen ⊢
        omega
      · rw [etl]
        simp
      · intro c hc
        rw [efr]
        exact hfr c (List.mem_append_left _ hc)
      · have hsub : ((init2 ++ [cp]).map Prod.fst).Sublist
            ((init2 ++ [cp] ++ [ct]).map Prod.fst) := by
          simp only [List.map_append]
          exact List.sublist_append_left _ _
        exact List.Nodup.sublist hsub hnd

/-- Distinctness facts around two adjacent cells of a nodup list. -/
theorem nodup_mid_facts {A : Type} {pre post : List A} {a b : A}
    (h : (pre ++ a :: b :: post).Nodup) :
    a ≠ b ∧ a ∉ pre ∧ b ∉ pre ∧ a ∉ post ∧ b ∉ post := by
  rw [List.nodup_append] at h
  obtain ⟨hpre, hrest, hdisj⟩ := h
  rw [List.nodup_cons] at hrest
  obtain ⟨ha, hrest2⟩ := hrest
  rw [List.nodup_cons] at hrest2
  obtain ⟨hb, -⟩ := hrest2
  simp only [List.mem_cons] at ha
  push_neg at ha
  refine ⟨ha.1, ?_, ?_, ha.2, hb⟩
  · intro hmem; exact hdisj hmem (by simp)
  · intro hmem; exact hdisj hmem (by simp)

/-- Inserting a completely fresh element between two adjacent cells keeps
a list nodup. -/
theorem nodup_insert_mid {A : Type} {pre post : List A} {a b f : A}
    (h : (pre ++ a :: b :: post).Nodup) (hf : f ∉ pre ++ a :: b :: post) :
    (pre ++ a :: f :: b :: post).Nodup := by
  simp only [List.mem_append, List.mem_cons] at hf
  push_neg at hf
  obtain ⟨hfpre, hfa, hfb, hfpost⟩ := hf
  rw [List.nodup_append] at h ⊢
  obtain ⟨hpre, hrest, hdisj⟩ := h
  rw [List.nodup_cons] at hrest
  obtain ⟨ha, hrest2⟩ := hrest
  simp only [List.mem_cons] at ha
  push_neg at ha
  refine ⟨hpre, ?_, ?_⟩
  · rw [List.nodup_cons]
    constructor
    · simp only [List.mem_cons]
      push_neg
      exact ⟨fun heq => hfa heq.symm, ha.1, ha.2⟩
    · rw [List.nodup_cons]
      constructor
      · simp only [List.mem_cons]
        push_neg
        exact ⟨fun heq => hfb heq, hfpost⟩
      · exact hrest2
  · intro x hx hx2
    have hold := hdisj hx
    simp only [List.mem_cons] at hold hx2
    rcases hx2 with rfl | rfl | rfl | h2
    · exact hold (Or.inl rfl)
    · exact hfpre hx
    · exact hold (Or.inr (Or.inl rfl))
    · exact hold (Or.inr (Or.inr h2))

theorem insertAtHead_length {T : Type} (l : LinkedList T) (v : T) :
    (insertAtHead l v).length = l.length + 1 := by
  cases hh : l.head <;> simp [insertAtHead, hh]

theorem insertAtHead_fresh {T : Type} (l : LinkedList T) (v : T) :
    (insertAtHead l v).fresh = l.fresh + 1 := by
  cases hh : l.head <;> simp [insertAtHead, hh]

theorem insertAtTail_length {T : Type} (l : LinkedList T) (v : T) :
    (insertAtTail l v).length = l.length + 1 := by
  cases ht : l.tail <;> simp [insertAtTail, ht]

theorem insertAtTail_fresh {T : Type} (l : LinkedList T) (v : T) :
    (insertAtTail l v).fresh = l.fresh + 1 := by
  cases ht : l.tail <;> simp [insertAtTail, ht]

/-- Dropping the left part of an append does not change the last element. -/
theorem getLast?_append_ne {A : Type} (l1 l2 : List A) (h : l2 ≠ []) :
    (l1 ++ l2).getLast? = l2.getLast? := by
  rcases l2.eq_nil_or_concat with rfl | ⟨init, b, rfl⟩
  · exact absurd rfl h
  · rw [List.concat_eq_append, ← List.append_assoc]
    simp

/-- insert_at_ith with a bounds-valid index always succeeds, splicing a fresh
cell at position `i`; in particular the predecessor-absent no-insert branch is
never taken. -/
theorem insertAtIth_modelsA {T : Type} {l : LinkedList T} {cells : List (Addr × T)}
    (hm : ModelsA l cells) {i : Nat} (hi : i ≤ cells.length) (v : T) :
    ∃ l', insertAtIth l i v = .ok l' ∧
      ModelsA l' (cells.take i ++ (l.fresh, v) :: cells.drop i) ∧
      l'.length = l.length + 1 ∧ l'.fresh = l.fresh + 1 := by
  have hlen := hm.length_ok
  by_cases hi0 : i = 0
  · subst hi0
    refine ⟨insertAtHead l v, ?_, ?_, insertAtHead_length l v, insertAtHead_fresh l v⟩
    · rw [insertAtIth, if_neg (by omega), if_pos (Or.inl rfl)]
    · simpa using modelsA_insertAtHead hm v
  by_cases hilen : i = l.length
  · have hlen_cells : i = cells.length := by omega
    have hcells_ne : cells ≠ [] := by
      intro h0
      rw [h0] at hlen_cells
      simp at hlen_cells
      omega
    obtain ⟨a0, ha0⟩ : ∃ a0, l.head = some a0 := by
      cases hh : l.head with
      | some a0 => exact ⟨a0, rfl⟩
      | none =>
        have h' := hm.chain_ok
        rw [hh] at h'
        exact absurd (chainSeg_none h') hcells_ne
    refine ⟨insertAtTail l v, ?_, ?_, insertAtTail_length l v, insertAtTail_fresh l v⟩
    · rw [insertAtIth, if_neg (by omega), if_neg (by
        push_neg
        exact ⟨hi0, by rw [ha0]; simp⟩), if_pos hilen]
    · rw [hlen_cells, List.take_length, List.drop_length]
      exact modelsA_insertAtTail hm v
  · have hipos : 0 < i := Nat.pos_of_ne_zero hi0
    have hilt : i < cells.length := by omega
    obtain ⟨cmid, ys, hdrop⟩ : ∃ cmid ys, cells.drop i = cmid :: ys := by
      cases hd : cells.drop i with
      | nil =>
        have := List.drop_eq_nil_iff.mp hd
        omega
      | cons cmid ys => exact ⟨cmid, ys, rfl⟩
    have htklen : (cells.take i).length = i := by
      rw [List.length_take]
      omega
    rcases (cells.take i).eq_nil_or_concat with htk | ⟨xinit, cq, hxs2⟩
    · rw [htk] at htklen
      simp at htklen
      omega
    · simp only [List.concat_eq_append] at hxs2
      have hcells : cells = xinit ++ cq :: cmid :: ys := by
        conv_lhs => rw [← List.take_append_drop i cells]
        rw [hxs2, hdrop, List.append_assoc]
        rfl
      have hch0 := hm.chain_ok
      have htail := hm.tail_ok
      have hfrD := hm.fresh_ok
      have hnd := hm.nodup_ok
      obtain ⟨a0, ha0⟩ : ∃ a0, l.head = some a0 := by
        cases hh : l.head with
        | some a0 => exact ⟨a0, rfl⟩
        | none =>
          have h' := hch0
          rw [hh] at h'
          have hnil := chainSeg_none h'
          rw [hnil] at hilt
          simp at hilt
      have hwalk : walkNext l.heap a0 i = some cmid.1 := by
        have hw := chainSeg_walkNext cells none a0 _ none (ha0 ▸ hch0) i hilt
        rw [hw, hcells]
        have hxslen : ((xinit ++ [cq]).map Prod.fst).length = i := by
          rw [List.length_map, ← hxs2, htklen]
        rw [show xinit ++ cq :: cmid :: ys = (xinit ++ [cq]) ++ cmid :: ys by
          rw [List.append_assoc]; rfl]
        rw [List.map_append, List.get?_append_right (le_of_eq hxslen), hxslen,
          Nat.sub_self]
        rfl
      have hchD := hch0
      rw [hcells] at hchD
      obtain ⟨prI, curI, hxinit, h3⟩ := (chainSeg_append _ _ _ _ _ _).1 hchD
      obtain ⟨hcurI, nq, hnq, hvq, hpq, h4⟩ := h3
      obtain ⟨hnqx, nm, hnm, hvm, hpm, hys⟩ := h4
      have hndD := hnd
      rw [hcells, List.map_append, List.map_cons, List.map_cons] at hndD
      obtain ⟨hqm, hq_pre, hm_pre, hq_post, hm_post⟩ := nodup_mid_facts hndD
      have hq_lt : cq.1 < l.fresh := hfrD cq (by rw [hcells]; simp)
      have hm_lt : cmid.1 < l.fresh := hfrD cmid (by rw [hcells]; simp)
      have hq_nf : cq.1 ≠ l.fresh := Nat.ne_of_lt hq_lt
      have hm_nf : cmid.1 ≠ l.fresh := Nat.ne_of_lt hm_lt
      have hf_nq : l.fresh ≠ cq.1 := Ne.symm hq_nf
      have hf_nm : l.fresh ≠ cmid.1 := Ne.symm hm_nf
      have hqm' : cmid.1 ≠ cq.1 := Ne.symm hqm
      have hc1 : ¬ l.length < i := by omega
      have hc2 : ¬ (i = 0 ∨ l.head = none) := by
        push_neg
        exact ⟨hi0, by rw [ha0]; simp⟩
      have e0 : insertAtIth l i v = .ok
          { l with
              heap := hmodify (hmodify
                  (hset l.heap l.fresh
                    (some { val := v, next := some cmid.1, prev := some cq.1 }))
                  cq.1 (fun n => { n with next := some l.fresh }))
                cmid.1 (fun n => { n with prev := some l.fresh }),
              length := l.length + 1, fresh := l.fresh + 1 } := by
        rw [insertAtIth, if_neg hc1, if_neg hc2, if_neg hilen]
        simp only [ha0, hwalk, hnm, hpm]
      refine ⟨_, e0, ⟨?_, ?_, ?_, ?_, ?_⟩, rfl, rfl⟩
      · show chainSeg
          (hmodify (hmodify
              (hset l.heap l.fresh
                (some { val := v, next := some cmid.1, prev := some cq.1 }))
              cq.1 (fun n => { n with next := some l.fresh }))
            cmid.1 (fun n => { n with prev := some l.fresh }))
          none l.head (cells.take i ++ (l.fresh, v) :: cells.drop i)
          (((cells.take i ++ (l.fresh, v) :: cells.drop i).map Prod.fst).getLast?) none
        rw [hxs2, hdrop]
        rw [show (xinit ++ [cq]) ++ (l.fresh, v) :: cmid :: ys
            = xinit ++ cq :: (l.fresh, v) :: cmid :: ys by
          rw [List.append_assoc]; rfl]
        have hglA : ((xinit ++ cq :: (l.fresh, v) :: cmid :: ys).map Prod.fst).getLast?
            = (cmid.1 :: ys.map Prod.fst).getLast? := by
          rw [List.map_append, getLast?_append_ne _ _ (by simp), List.map_cons,
            List.map_cons, List.map_cons, List.getLast?_cons_cons,
            List.getLast?_cons_cons]
        have hglB : ((xinit ++ cq :: cmid :: ys).map Prod.fst).getLast?
            = (cmid.1 :: ys.map Prod.fst).getLast? := by
          rw [List.map_append, getLast?_append_ne _ _ (by simp), List.map_cons,
            List.map_cons, List.getLast?_cons_cons]
        rw [hglA, ← hglB]
        refine (chainSeg_append _ _ _ _ _ _).2 ⟨prI, some cq.1, ?_, ?_⟩
        · refine chainSeg_congr ?_ (hcurI ▸ hxinit)
          intro c hc
          have h1 : c.1 ≠ cmid.1 :=
            fun heq => hm_pre (heq ▸ List.mem_map_of_mem Prod.fst hc)
          have h2 : c.1 ≠ cq.1 :=
            fun heq => hq_pre (heq ▸ List.mem_map_of_mem Prod.fst hc)
          have h3 : c.1 ≠ l.fresh := Nat.ne_of_lt
            (hfrD c (by rw [hcells]; exact List.mem_append_left _ hc))
          rw [hmodify_other _ _ h1, hmodify_other _ _ h2, hset_other _ _ h3]
        · refine ⟨rfl, { nq with next := some l.fresh }, ?_, hvq, hpq, ?_⟩
          · rw [hmodify_other _ _ hqm, hmodify_self, hset_other _ _ hq_nf, hnq]
            rfl
          · refine ⟨rfl, { val := v, next := some cmid.1, prev := some cq.1 }, ?_,
              rfl, rfl, ?_⟩
            · rw [hmodify_other _ _ hf_nm, hmodify_other _ _ hf_nq, hset_self]
            · refine ⟨rfl, { nm with prev := some l.fresh }, ?_, hvm, rfl, ?_⟩
              · rw [hmodify_self, hmodify_other _ _ hqm', hset_other _ _ hm_nf, hnm]
                rfl
              · refine chainSeg_congr ?_ hys
                intro c hc
                have h1 : c.1 ≠ cmid.1 :=
                  fun heq => hm_post (heq ▸ List.mem_map_of_mem Prod.fst hc)
                have h2 : c.1 ≠ cq.1 :=
                  fun heq => hq_post (heq ▸ List.mem_map_of_mem Prod.fst hc)
                have h3 : c.1 ≠ l.fresh := Nat.ne_of_lt
                  (hfrD c (by rw [hcells]; simp [hc]))
                rw [hmodify_other _ _ h1, hmodify_other _ _ h2, hset_other _ _ h3]
      · show l.length + 1 = (cells.take i ++ (l.fresh, v) :: cells.drop i).length
        simp only [List.length_append, List.length_cons, List.length_take,
          List.length_drop]
        omega
      · show l.tail = ((cells.take i ++ (l.fresh, v) :: cells.drop i).map
            Prod.fst).getLast?
        rw [htail, hxs2, hdrop]
        rw [show (xinit ++ [cq]) ++ (l.fresh, v) :: cmid :: ys
            = xinit ++ cq :: (l.fresh, v) :: cmid :: ys by
          rw [List.append_assoc]; rfl]
        rw [hcells]
        rw [List.map_append, getLast?_append_ne _ _ (by simp), List.map_cons,
          List.map_cons, List.getLast?_cons_cons]
        rw [List.map_append, getLast?_append_ne _ _ (by simp), List.map_cons,
          List.map_cons, List.map_cons, List.getLast?_cons_cons,
          List.getLast?_cons_cons]
      · intro c hc
        show c.1 < l.fresh + 1
        rcases List.mem_append.1 hc with h1 | h2
        · exact Nat.lt_succ_of_lt (hfrD c (List.take_subset i cells h1))
        · rcases List.mem_cons.1 h2 with rfl | h3
          · exact Nat.lt_succ_self _
          · exact Nat.lt_succ_of_lt (hfrD c (List.drop_subset i cells h3))
      · rw [hxs2, hdrop]
        have hmapN : (((xinit ++ [cq]) ++ (l.fresh, v) :: cmid :: ys).map Prod.fst)
            = xinit.map Prod.fst ++ cq.1 :: l.fresh :: cmid.1 :: ys.map Prod.fst := by
          simp
        rw [hmapN]
        refine nodup_insert_mid hndD ?_
        intro hmem
        have hmem2 : l.fresh ∈ cells.map Prod.fst := by
          rw [hcells]
          simpa using hmem
        obtain ⟨c, hcmem, hceq⟩ := List.mem_map.1 hmem2
        exact absurd hceq (Nat.ne_of_lt (hfrD c hcmem))

/-- On a well-formed list the locate loop lands on the i-th cell, which is
present in the heap. -/
theorem modelsA_walkNext {T : Type} {l : LinkedList T} {cells : List (Addr × T)}
    (hm : ModelsA l cells) {i : Nat} (hilt : i < cells.length) {a0 : Addr}
    (ha0 : l.head = some a0) :
    ∃ c, c ∈ cells ∧ cells.get? i = some c ∧ walkNext l.heap a0 i = some c.1 ∧
      ∃ n, l.heap c.1 = some n ∧ n.val = c.2 := by
  obtain ⟨c, hc⟩ : ∃ c, cells.get? i = some c := by
    rw [List.get?_eq_get hilt]
    exact ⟨_, rfl⟩
  have hmem : c ∈ cells := List.get?_mem hc
  have hw := chainSeg_walkNext cells none a0 _ none (ha0 ▸ hm.chain_ok) i hilt
  rw [List.get?_map, hc, Option.map_some'] at hw
  obtain ⟨n, hn, hval⟩ := chainSeg_mem cells _ _ _ _ hm.chain_ok c hmem
  exact ⟨c, hmem, hc, hw, n, hn, hval⟩

/-- delete_ith never panics on a bounds-valid index. -/
theorem deleteIth_ok {T : Type} {l : LinkedList T} {cells : List (Addr × T)}
    (hm : ModelsA l cells) {i : Nat} (hi : i ≤ cells.length) :
    ∃ r, deleteIth l i = .ok r := by
  have hlen := hm.length_ok
  have hc1 : ¬ l.length < i := by omega
  by_cases hcond : i = 0 ∨ l.head = none
  · exact ⟨_, by rw [deleteIth, if_neg hc1, if_pos hcond]⟩
  · push_neg at hcond
    obtain ⟨hi0, hhead⟩ := hcond
    by_cases hilen : l.length = i
    · exact ⟨_, by rw [deleteIth, if_neg hc1,
        if_neg (by push_neg; exact ⟨hi0, hhead⟩), if_pos hilen]⟩
    · have hilt : i < cells.length := by omega
      obtain ⟨a0, ha0⟩ : ∃ a0, l.head = some a0 :=
        Option.ne_none_iff_exists'.mp hhead
      obtain ⟨c, hmem, hget, hw, n, hn, -⟩ := modelsA_walkNext hm hilt ha0
      cases hres : deleteIth l i with
      | ok r => exact ⟨r, rfl⟩
      | error e =>
        rw [deleteIth, if_neg hc1, if_neg (by push_neg; exact ⟨hi0, hhead⟩),
          if_neg hilen] at hres
        simp only [ha0, hw, hn] at hres
        exact Except.noConfusion hres

/-- insert_at_ith never panics on a bounds-valid index. -/
theorem insertAtIth_ok {T : Type} {l : LinkedList T} {cells : List (Addr × T)}
    (hm : ModelsA l cells) {i : Nat} (hi : i ≤ cells.length) (v : T) :
    ∃ r, insertAtIth l i v = .ok r := by
  obtain ⟨l', he, -, -, -⟩ := insertAtIth_modelsA hm hi v
  exact ⟨l', he⟩

/-- The bounds check of insert_at_ith fires first: index above length panics
with the list untouched. -/
theorem insertAtIth_error {T : Type} (l : LinkedList T) {i : Nat} (v : T)
    (h : l.length < i) : insertAtIth l i v = .error l := by
  rw [insertAtIth, if_pos h]

/-- The bounds check of delete_ith fires first: index above length panics
with the list untouched. -/
theorem deleteIth_error {T : Type} (l : LinkedList T) {i : Nat}
    (h : l.length < i) : deleteIth l i = .error l := by
  rw [deleteIth, if_pos h]

/-- get_ith_node on an out-of-range index (negative included) walks off the
chain and returns none, for any sufficient fuel. -/
theorem getIthNode_out {T : Type} {h : Heap T} :
    ∀ (cells : List (Addr × T)) (pr cur prO : Option Addr),
      chainSeg h pr cur cells prO none →
      ∀ (i : Int) (fuel : Nat), cells.length < fuel →
      (i < 0 ∨ (cells.length : Int) ≤ i) → getIthNode h fuel cur i = none := by
  intro cells
  induction cells with
  | nil =>
    intro pr cur prO hch i fuel hfuel _
    obtain ⟨-, rfl⟩ := hch
    cases fuel with
    | zero => simp at hfuel
    | succ f => rfl
  | cons c rest ih =>
    intro pr cur prO hch i fuel hfuel hout
    obtain ⟨rfl, n, hn, hv, hp, hrest⟩ := hch
    cases fuel with
    | zero => simp at hfuel
    | succ f =>
      have hi0 : i ≠ 0 := by
        rcases hout with h1 | h2
        · omega
        · simp only [List.length_cons] at h2
          omega
      rw [getIthNode, if_neg hi0, hn]
      refine ih _ _ _ hrest (i - 1) f ?_ ?_
      · simp only [List.length_cons] at hfuel
        omega
      · simp only [List.length_cons] at hout
        omega

/-- get_ith_node on an in-range index returns the node at that position, for
any sufficient fuel. -/
theorem getIthNode_in {T : Type} {h : Heap T} :
    ∀ (cells : List (Addr × T)) (pr cur prO : Option Addr),
      chainSeg h pr cur cells prO none →
      ∀ (k : Nat) (fuel : Nat), k < cells.length → cells.length < fuel →
      getIthNode h fuel cur (k : Int) = (cells.map Prod.fst).get? k := by
  intro cells
  induction cells with
  | nil =>
    intro pr cur prO hch k fuel hk _
    simp at hk
  | cons c rest ih =>
    intro pr cur prO hch k fuel hk hfuel
    obtain ⟨rfl, n, hn, hv, hp, hrest⟩ := hch
    cases fuel with
    | zero => simp at hfuel
    | succ f =>
      cases k with
      | zero =>
        rw [getIthNode]
        simp
      | succ k =>
        have hne : ((k + 1 : Nat) : Int) ≠ 0 := by
          push_cast
          omega
        rw [getIthNode, if_neg hne, hn]
        have hcast : ((k + 1 : Nat) : Int) - 1 = (k : Int) := by push_cast; omega
        rw [hcast]
        refine ih _ _ _ hrest k f ?_ ?_
        · simp only [List.length_cons] at hk
          omega
        · simp only [List.length_cons] at hfuel
          omega

/-- The destructor loop: with any fuel above the list length it performs
exactly `length` delete_head calls, frees every cell, and leaves an empty
well-formed list. -/
theorem dropLoop_spec {T : Type} :
    ∀ (cells : List (Addr × T)) (l : LinkedList T), ModelsA l cells →
      ∃ l', (∀ fuel, cells.length < fuel → dropLoop fuel l = (l', cells.length)) ∧
        ModelsA l' [] ∧ (∀ c ∈ cells, l'.heap c.1 = none) ∧
        (∀ x, x ∉ cells.map Prod.fst → l'.heap x = l.heap x) := by
  intro cells
  induction cells with
  | nil =>
    intro l hm
    have hl0 : l.length = 0 := by simpa using hm.length_ok
    have hdh : deleteHead l = (none, l) := by
      rw [deleteHead, if_pos hl0]
    refine ⟨l, ?_, hm, by simp, fun x _ => rfl⟩
    intro fuel hfuel
    cases fuel with
    | zero => simp at hfuel
    | succ f =>
      rw [dropLoop, hdh]
      rfl
  | cons c rest ih =>
    intro l hm
    obtain ⟨hv, hm1, hfree, hframe, -, -, -⟩ := deleteHead_modelsA hm
    obtain ⟨l', hrun, hm', hnone, hframe'⟩ := ih (deleteHead l).2 hm1
    have hcnotin : c.1 ∉ rest.map Prod.fst := by
      have := hm.nodup_ok
      simp only [List.map_cons, List.nodup_cons] at this
      exact this.1
    have hpair : deleteHead l = (some c.2, (deleteHead l).2) := by
      rw [← hv]
    refine ⟨l', ?_, hm', ?_, ?_⟩
    · intro fuel hfuel
      cases fuel with
      | zero => simp at hfuel
      | succ f =>
        rw [dropLoop, hpair]
        have hf : rest.length < f := by
          simp only [List.length_cons] at hfuel
          omega
        simp only [hrun f hf, List.length_cons]
    · intro c' hc'
      rcases List.mem_cons.1 hc' with rfl | hmem
      · rw [hframe' c'.1 hcnotin]
        exact hfree
      · exact hnone c' hmem
    · intro x hx
      simp only [List.map_cons, List.mem_cons] at hx
      push_neg at hx
      rw [hframe' x hx.2, hframe x (by
        simp only [List.map_cons, List.mem_cons]
        push_neg
        exact hx)]

/-- insertIdxFn agrees with the take/drop splice description. -/
theorem insertIdxFn_take_drop {T : Type} (v : T) :
    ∀ (i : Nat) (xs : List T), i ≤ xs.length →
      insertIdxFn i v xs = xs.take i ++ v :: xs.drop i := by
  intro i
  induction i with
  | zero => intro xs _; rfl
  | succ n ih =>
    intro xs hle
    cases xs with
    | nil => simp at hle
    | cons x xs =>
      simp only [List.length_cons] at hle
      rw [insertIdxFn, List.take_succ_cons, List.drop_succ_cons, List.cons_append,
        ih xs (by omega)]

/-! ### Binary search tree lemmas -/

theorem elems_def {T : Type} (value : Option T)
    (left right : Option (BinarySearchTree T)) :
    (BinarySearchTree.mk value left right).elems =
    (match left with | some node => node.elems | none => []) ++
    (match value with | some key => [key] | none => []) ++
    (match right with | some node => node.elems | none => []) := by
  rw [BinarySearchTree.elems.eq_def]

theorem insert_def {T : Type} [LinearOrder T] (value : Option T)
    (left right : Option (BinarySearchTree T)) (v : T) :
    (BinarySearchTree.mk value left right).insert v =
    (match value with
     | none => .mk (some v) left right
     | some key =>
       if v < key then
         match left with
         | some node => .mk (some key) (some (node.insert v)) right
         | none => .mk (some key) (some (.mk (some v) none none)) right
       else
         match right with
         | some node => .mk (some key) left (some (node.insert v))
         | none => .mk (some key) left (some (.mk (some v) none none))) := by
  rw [BinarySearchTree.insert.eq_def]

theorem search_def {T : Type} [LinearOrder T] (value : Option T)
    (left right : Option (BinarySearchTree T)) (v : T) :
    (BinarySearchTree.mk value left right).search v =
    (match value with
     | some key =>
       match compare key v with
       | .eq => true
       | .gt =>
         match left with
         | some node => node.search v
         | none => false
       | .lt =>
         match right with
         | some node => node.search v
         | none => false
     | none => false) := by
  cases value with
  | none => cases left <;> cases right <;> simp [BinarySearchTree.search]
  | some key =>
    rcases hc : compare key v with h1 | h2 | h3 <;> cases left <;> cases right <;>
      simp [BinarySearchTree.search, hc]

theorem wellFormed_def {T : Type} [LinearOrder T] (value : Option T)
    (left right : Option (BinarySearchTree T)) :
    (BinarySearchTree.mk value left right).WellFormed =
    (match value with
     | none => left = none ∧ right = none
     | some key =>
       (match left with
        | some node => (∀ x ∈ node.elems, x < key) ∧ node.WellFormed
        | none => True) ∧
       (match right with
        | some node => (∀ x ∈ node.elems, key ≤ x) ∧ node.WellFormed
        | none => True)) := by
  rw [BinarySearchTree.WellFormed.eq_def]

/-- Membership in elems after insert. -/
theorem mem_elems_insert {T : Type} [LinearOrder T] :
    ∀ (t : BinarySearchTree T) (v x : T),
      (x ∈ (t.insert v).elems ↔ x = v ∨ x ∈ t.elems)
  | .mk value left right, v, x => by
    cases value with
    | none =>
      simp only [insert_def, elems_def, List.mem_append, List.mem_singleton,
        List.not_mem_nil]
      tauto
    | some key =>
      by_cases hlt : v < key
      · cases left with
        | some node =>
          simp only [insert_def, if_pos hlt, elems_def, List.mem_append,
            List.mem_singleton, mem_elems_insert node v x]
          tauto
        | none =>
          simp only [insert_def, if_pos hlt, elems_def, List.mem_append,
            List.mem_singleton, List.not_mem_nil]
          tauto
      · cases right with
        | some node =>
          simp only [insert_def, if_neg hlt, elems_def, List.mem_append,
            List.mem_singleton, mem_elems_insert node v x]
          tauto
        | none =>
          simp only [insert_def, if_neg hlt, elems_def, List.mem_append,
            List.mem_singleton, List.not_mem_nil]
          tauto

/-- Insert preserves search-tree well-formedness. -/
theorem wellFormed_insert {T : Type} [LinearOrder T] :
    ∀ (t : BinarySearchTree T), t.WellFormed → ∀ v, (t.insert v).WellFormed
  | .mk value left right => by
    intro hwf v
    simp only [wellFormed_def] at hwf
    cases value with
    | none =>
      obtain ⟨hl, hr⟩ : left = none ∧ right = none := hwf
      subst hl
      subst hr
      simp only [insert_def, wellFormed_def]
      exact ⟨trivial, trivial⟩
    | some key =>
      obtain ⟨hwl, hwr⟩ : _ ∧ _ := hwf
      by_cases hlt : v < key
      · cases left with
        | some node =>
          simp only [insert_def, if_pos hlt, wellFormed_def]
          refine ⟨⟨?_, ?_⟩, hwr⟩
          · intro x hx
            rcases (mem_elems_insert node v x).1 hx with rfl | hx'
            · exact hlt
            · exact hwl.1 x hx'
          · exact wellFormed_insert node hwl.2 v
        | none =>
          simp only [insert_def, if_pos hlt, wellFormed_def]
          refine ⟨⟨?_, ?_⟩, hwr⟩
          · intro x hx
            simp only [elems_def, List.nil_append, List.mem_singleton,
              List.append_nil] at hx
            subst hx
            exact hlt
          · exact ⟨trivial, trivial⟩
      · cases right with
        | some node =>
          simp only [insert_def, if_neg hlt, wellFormed_def]
          refine ⟨hwl, ⟨?_, ?_⟩⟩
          · intro x hx
            rcases (mem_elems_insert node v x).1 hx with rfl | hx'
            · exact not_lt.1 hlt
            · exact hwr.1 x hx'
          · exact wellFormed_insert node hwr.2 v
        | none =>
          simp only [insert_def, if_neg hlt, wellFormed_def]
          refine ⟨hwl, ⟨?_, ?_⟩⟩
          · intro x hx
            simp only [elems_def, List.nil_append, List.mem_singleton,
              List.append_nil] at hx
            subst hx
            exact not_lt.1 hlt
          · exact ⟨trivial, trivial⟩

/-- On a well-formed tree, search answers membership in elems. -/
theorem search_correct {T : Type} [LinearOrder T] :
    ∀ (t : BinarySearchTree T), t.WellFormed → ∀ v, (t.search v = true ↔ v ∈ t.elems)
  | .mk value left right => by
    intro hwf v
    simp only [wellFormed_def] at hwf
    cases value with
    | none =>
      obtain ⟨hl, hr⟩ : left = none ∧ right = none := hwf
      subst hl
      subst hr
      simp [search_def, elems_def]
    | some key =>
      obtain ⟨hwl, hwr⟩ : _ ∧ _ := hwf
      rcases lt_trichotomy key v with hlt | heq | hgt
      · have hc : compare key v = .lt := compare_lt_iff_lt.mpr hlt
        have hvnl : ∀ lnode, left = some lnode → v ∉ lnode.elems := by
          intro lnode hleq hm
          rw [hleq] at hwl
          exact absurd (hwl.1 v hm) (not_lt.2 (le_of_lt hlt))
        have hvnk : v ≠ key := fun heq2 => absurd (heq2 ▸ hlt) (lt_irrefl v)
        cases right with
        | some node =>
          simp only [search_def, hc]
          rw [search_correct node hwr.2 v]
          simp only [elems_def, List.mem_append, List.mem_singleton]
          constructor
          · intro hm
            tauto
          · rintro ((hm | hm) | hm)
            · cases hleft : left with
              | some lnode =>
                rw [hleft] at hm
                exact absurd hm (hvnl lnode hleft)
              | none =>
                rw [hleft] at hm
                exact absurd hm (List.not_mem_nil v)
            · exact absurd hm hvnk
            · exact hm
        | none =>
          simp only [search_def, hc]
          simp only [elems_def, List.mem_append, List.mem_singleton,
            List.not_mem_nil]
          constructor
          · intro hfalse
            exact absurd hfalse (by simp)
          · rintro ((hm | hm) | hm)
            · cases hleft : left with
              | some lnode =>
                rw [hleft] at hm
                exact absurd hm (hvnl lnode hleft)
              | none =>
                rw [hleft] at hm
                exact absurd hm (List.not_mem_nil v)
            · exact absurd hm hvnk
            · exact hm.elim
      · have hc : compare key v = .eq := compare_eq_iff_eq.mpr heq
        subst heq
        simp [search_def, hc, elems_def]
      · have hc : compare key v = .gt := compare_gt_iff_gt.mpr hgt
        have hvnr : ∀ rnode, right = some rnode → v ∉ rnode.elems := by
          intro rnode hreq hm
          rw [hreq] at hwr
          exact absurd (hwr.1 v hm) (not_le.2 hgt)
        have hvnk : v ≠ key := fun heq2 => absurd (heq2 ▸ hgt) (lt_irrefl v)
        cases left with
        | some node =>
          simp only [search_def, hc]
          rw [search_correct node hwl.2 v]
          simp only [elems_def, List.mem_append, List.mem_singleton]
          constructor
          · intro hm
            tauto
          · rintro ((hm | hm) | hm)
            · exact hm
            · exact absurd hm hvnk
            · cases hright : right with
              | some rnode =>
                rw [hright] at hm
                exact absurd hm (hvnr rnode hright)
              | none =>
                rw [hright] at hm
                exact absurd hm (List.not_mem_nil v)
        | none =>
          simp only [search_def, hc]
          simp only [elems_def, List.mem_append, List.mem_singleton,
            List.not_mem_nil]
          constructor
          · intro hfalse
            exact absurd hfalse (by simp)
          · rintro ((hm | hm) | hm)
            · exact hm.elim
            · exact absurd hm hvnk
            · cases hright : right with
              | some rnode =>
                rw [hright] at hm
                exact absurd hm (hvnr rnode hright)
              | none =>
                rw [hright] at hm
                exact absurd hm (List.not_mem_nil v)

/-- insertAll preserves well-formedness. -/
theorem wellFormed_insertAll {T : Type} [LinearOrder T] (vs : List T) :
    ∀ (t : BinarySearchTree T), t.WellFormed → (t.insertAll vs).WellFormed := by
  induction vs with
  | nil => intro t hwf; exact hwf
  | cons v vs ih =>
    intro t hwf
    exact ih _ (wellFormed_insert t hwf v)

/-- Membership in elems after insertAll. -/
theorem mem_elems_insertAll {T : Type} [LinearOrder T] (vs : List T) :
    ∀ (t : BinarySearchTree T) (x : T),
      (x ∈ (t.insertAll vs).elems ↔ x ∈ vs ∨ x ∈ t.elems) := by
  induction vs with
  | nil =>
    intro t x
    simp [BinarySearchTree.insertAll]
  | cons v vs ih =>
    intro t x
    have hstep : t.insertAll (v :: vs) = (t.insert v).insertAll vs := rfl
    rw [hstep, ih (t.insert v) x, mem_elems_insert t v x]
    simp only [List.mem_cons]
    tauto

/-! ### Claim theorems -/

/-- C1: the spec demands that after every successful deletion the list
invariants hold, in particular that after delete_ith(i) with
1 ≤ i ≤ length-1 the tail still refers to the last node of the chain.  The
code violates this: on the two-element list [1, 2] (nodes at addresses 0
and 1, tail = address 1), delete_ith(1) takes the middle branch, unlinks and
frees the node at address 1, but never updates `self.tail`.  The result below
shows the chain is now the single node 1 at address 0 (head, next = absent)
while `tail` still holds address 1, whose node has been deallocated — a
dangling tail pointer, and `Models` (invariants 1-4) fails for the resulting
state. -/
theorem c1_deleteIth_leaves_tail_dangling :
    ∃ v l', deleteIth (insertAtTail (insertAtTail (newList (T := Nat)) 1) 2) 1
        = .ok (v, l') ∧
      v = some 2 ∧ l'.length = 1 ∧ l'.head = some 0 ∧
      l'.heap 0 = some { val := 1, next := none, prev := none } ∧
      l'.tail = some 1 ∧ l'.heap 1 = none ∧ ¬ Models l' [1] := by
  refine ⟨_, _, rfl, rfl, rfl, rfl, rfl, rfl, rfl, ?_⟩
  rintro ⟨cells, hma, hmap⟩
  have hlen1 : cells.length = 1 := by
    have h2 : (1 : Nat) = cells.length := hma.length_ok
    exact h2.symm
  obtain ⟨c, rfl⟩ := List.length_eq_one.mp hlen1
  obtain ⟨hcur, n, hn, hv, hp, hrest⟩ := hma.chain_ok
  have h0 : (some 0 : Option Addr) = some c.1 := hcur
  have htl' : (some 1 : Option Addr) = ([c].map Prod.fst).getLast? := hma.tail_ok
  have h1 : (some 1 : Option Addr) = some c.1 := by
    rw [htl']
    simp
  injection h0 with h0'
  injection h1 with h1'
  exact absurd (h1'.trans h0'.symm) one_ne_zero

/-- C2: insert_at_ith and delete_ith raise OutOfBounds (panic) exactly when
the index exceeds the length; the bounds check precedes any mutation, so the
panic carries the list unchanged. -/
theorem c2_outOfBounds_iff {T : Type} (l : LinkedList T) (vs : List T) (i : Nat)
    (v : T) (hm : Models l vs) :
    ((∃ e, insertAtIth l i v = .error e) ↔ l.length < i) ∧
    ((∃ e, deleteIth l i = .error e) ↔ l.length < i) ∧
    (∀ e, insertAtIth l i v = .error e → e = l) ∧
    (∀ e, deleteIth l i = .error e → e = l) := by
  obtain ⟨cells, hma, rfl⟩ := hm
  have hlen := hma.length_ok
  refine ⟨⟨?_, ?_⟩, ⟨?_, ?_⟩, ?_, ?_⟩
  · rintro ⟨e, he⟩
    by_contra hnlt
    push_neg at hnlt
    have hile : i ≤ cells.length := by omega
    obtain ⟨r, hr⟩ := insertAtIth_ok hma hile v
    rw [hr] at he
    exact Except.noConfusion he
  · intro hlt
    exact ⟨l, insertAtIth_error l v hlt⟩
  · rintro ⟨e, he⟩
    by_contra hnlt
    push_neg at hnlt
    have hile : i ≤ cells.length := by omega
    obtain ⟨r, hr⟩ := deleteIth_ok hma hile
    rw [hr] at he
    exact Except.noConfusion he
  · intro hlt
    exact ⟨l, deleteIth_error l hlt⟩
  · intro e he
    rcases Nat.lt_or_ge l.length i with hlt | hge
    · rw [insertAtIth_error l v hlt] at he
      injection he with h
      exact h.symm
    · have hile : i ≤ cells.length := by omega
      obtain ⟨r, hr⟩ := insertAtIth_ok hma hile v
      rw [hr] at he
      exact Except.noConfusion he
  · intro e he
    rcases Nat.lt_or_ge l.length i with hlt | hge
    · rw [deleteIth_error l hlt] at he
      injection he with h
      exact h.symm
    · have hile : i ≤ cells.length := by omega
      obtain ⟨r, hr⟩ := deleteIth_ok hma hile
      rw [hr] at he
      exact Except.noConfusion he

/-- C3: on a well-formed list and any index 0 ≤ i ≤ length, insert_at_ith
succeeds (so the predecessor-absent silent-return branch is unreachable),
increments the length by exactly 1, and the resulting list represents the
value sequence with v placed at position i and the later elements shifted
up by one. -/
theorem c3_insertAtIth_success {T : Type} (l : LinkedList T) (vs : List T)
    (i : Nat) (v : T) (hm : Models l vs) (hi : i ≤ vs.length) :
    ∃ l', insertAtIth l i v = .ok l' ∧ Models l' (insertIdxFn i v vs) ∧
      l'.length = l.length + 1 := by
  obtain ⟨cells, hma, rfl⟩ := hm
  have hi' : i ≤ cells.length := by simpa using hi
  obtain ⟨l', he, hma', hl, -⟩ := insertAtIth_modelsA hma hi' v
  refine ⟨l', he, ⟨_, hma', ?_⟩, hl⟩
  rw [insertIdxFn_take_drop v i _ hi]
  simp [List.map_take, List.map_drop]

/-- C4: on a non-empty list, delete_ith(length) is exactly delete_tail
(returning the value at position length-1 and shrinking the length by one),
and delete_ith(0) is exactly delete_head. -/
theorem c4_deleteIth_boundary {T : Type} (l : LinkedList T) (vs : List T)
    (hm : Models l vs) (hne : vs ≠ []) :
    deleteIth l vs.length = .ok (deleteTail l) ∧
    (deleteTail l).1 = vs.getLast? ∧
    (deleteTail l).2.length = vs.length - 1 ∧
    deleteIth l 0 = .ok (deleteHead l) := by
  obtain ⟨cells, hma, rfl⟩ := hm
  have hlen := hma.length_ok
  have hcne : cells ≠ [] := by
    intro h0
    subst h0
    exact hne rfl
  obtain ⟨a0, ha0⟩ : ∃ a0, l.head = some a0 := by
    cases hh : l.head with
    | some a0 => exact ⟨a0, rfl⟩
    | none =>
      have h' := hma.chain_ok
      rw [hh] at h'
      exact absurd (chainSeg_none h') hcne
  have hlpos : l.length ≠ 0 := by
    rw [hlen]
    simpa using hcne
  rcases cells.eq_nil_or_concat with rfl | ⟨init, ct, rfl⟩
  · exact absurd rfl hcne
  · simp only [List.concat_eq_append] at hma hlen ⊢
    obtain ⟨hv, hm', hl, -⟩ := deleteTail_modelsA hma
    refine ⟨?_, ?_, ?_, ?_⟩
    · rw [deleteIth, if_neg (by simp [hlen, List.length_map]), if_neg (by
        push_neg
        refine ⟨?_, by rw [ha0]; simp⟩
        simp), if_pos (by rw [hlen]; simp)]
    · rw [hv]
      simp
    · rw [hl, hlen]
      simp
    · rw [deleteIth, if_neg (by omega), if_pos (Or.inl rfl)]

/-- C5: get(i) is a total read-only lookup: absent for i < 0 or i ≥ length,
the element at position i otherwise; the recursion is insensitive to any
fuel beyond the list length, so the source recursion terminates on every
well-formed list. -/
theorem c5_get_spec {T : Type} (l : LinkedList T) (vs : List T)
    (hm : Models l vs) (i : Int) :
    ((i < 0 ∨ (vs.length : Int) ≤ i) → getVal l i = none) ∧
    (∀ k : Nat, i = (k : Int) → k < vs.length → getVal l i = vs.get? k) ∧
    (∀ fuel, l.length < fuel →
      getIthNode l.heap fuel l.head i = getIthNode l.heap (l.length + 1) l.head i) := by
  obtain ⟨cells, hma, rfl⟩ := hm
  have hlen := hma.length_ok
  have hch := hma.chain_ok
  refine ⟨?_, ?_, ?_⟩
  · intro hout
    simp only [List.length_map] at hout
    rw [getVal, getIthNode_out cells _ _ _ hch i (l.length + 1) (by omega) hout]
    rfl
  · intro k hk hklen
    simp only [List.length_map] at hklen
    subst hk
    rw [getVal, getIthNode_in cells _ _ _ hch k (l.length + 1) hklen (by omega)]
    obtain ⟨c, hc⟩ : ∃ c, cells.get? k = some c := by
      rw [List.get?_eq_get hklen]
      exact ⟨_, rfl⟩
    obtain ⟨n, hn, hv⟩ := chainSeg_mem cells _ _ _ _ hch c (List.get?_mem hc)
    rw [List.get?_map, List.get?_map, hc]
    simp [hn, hv]
  · intro fuel hf
    by_cases hin : 0 ≤ i ∧ i < (cells.length : Int)
    · obtain ⟨h0, hlt⟩ := hin
      obtain ⟨k, rfl⟩ : ∃ k : Nat, i = (k : Int) :=
        ⟨i.toNat, (Int.toNat_of_nonneg h0).symm⟩
      have hk : k < cells.length := by exact_mod_cast hlt
      rw [getIthNode_in cells _ _ _ hch k fuel hk (by omega),
        getIthNode_in cells _ _ _ hch k (l.length + 1) hk (by omega)]
    · push_neg at hin
      have hout : i < 0 ∨ (cells.length : Int) ≤ i := by
        rcases lt_or_ge i 0 with h0 | h0
        · exact Or.inl h0
        · exact Or.inr (hin h0)
      rw [getIthNode_out cells _ _ _ hch i fuel (by omega) hout,
        getIthNode_out cells _ _ _ hch i (l.length + 1) (by omega) hout]

/-- C6: delete_head returns the absent marker exactly on the empty list (and
then changes nothing); otherwise it returns the first value, moves head to
the old head's successor, clears the new head's back-pointer when a
successor exists, drops tail to absent when the list empties, and shrinks
the length by exactly one. -/
theorem c6_deleteHead_spec {T : Type} (l : LinkedList T) (vs : List T)
    (hm : Models l vs) :
    ((deleteHead l).1 = none ↔ vs = []) ∧
    (vs = [] → deleteHead l = (none, l)) ∧
    (∀ v rest, vs = v :: rest →
      (deleteHead l).1 = some v ∧
      Models (deleteHead l).2 rest ∧
      (deleteHead l).2.length = l.length - 1 ∧
      (∃ a0 n0, l.head = some a0 ∧ l.heap a0 = some n0 ∧
        (deleteHead l).2.head = n0.next) ∧
      (rest = [] → (deleteHead l).2.tail = none) ∧
      (rest ≠ [] → ∃ a1 n1, (deleteHead l).2.head = some a1 ∧
        (deleteHead l).2.heap a1 = some n1 ∧ n1.prev = none)) := by
  obtain ⟨cells, hma, rfl⟩ := hm
  cases cells with
  | nil =>
    have hlen0 : l.length = 0 := by simpa using hma.length_ok
    have hdh : deleteHead l = (none, l) := by rw [deleteHead, if_pos hlen0]
    refine ⟨by simp [hdh], fun _ => hdh, ?_⟩
    intro v rest hvr
    simp at hvr
  | cons c0 cs =>
    obtain ⟨hv1, hm1, hfree, hframe, hlen1, hfr1, n0, hn0, hhd⟩ :=
      deleteHead_modelsA hma
    have hcur : l.head = some c0.1 := hma.chain_ok.1
    refine ⟨by rw [hv1]; simp, by intro h; simp at h, ?_⟩
    intro v rest hvr
    simp only [List.map_cons, List.cons.injEq] at hvr
    obtain ⟨hv, hrest⟩ := hvr
    subst hv
    subst hrest
    refine ⟨hv1, ⟨cs, hm1, rfl⟩, hlen1, ⟨c0.1, n0, hcur, hn0, hhd⟩, ?_, ?_⟩
    · intro hrestnil
      have hcsnil : cs = [] := by
        cases cs with
        | nil => rfl
        | cons c1 cs' => simp at hrestnil
      subst hcsnil
      simpa using hm1.tail_ok
    · intro hrestne
      cases cs with
      | nil => exact absurd rfl hrestne
      | cons c1 cs' =>
        obtain ⟨hcur1, n1, hn1, hv1', hp1, -⟩ := hm1.chain_ok
        exact ⟨c1.1, n1, hcur1, hn1, hp1⟩

/-- C7: insert_at_tail followed by delete_tail returns the pushed value,
restores the previous length, and leaves the list representing the same
value sequence as before (identity on the rest of the list). -/
theorem c7_tail_roundtrip {T : Type} (l : LinkedList T) (vs : List T) (v : T)
    (hm : Models l vs) :
    (deleteTail (insertAtTail l v)).1 = some v ∧
    Models (deleteTail (insertAtTail l v)).2 vs ∧
    (deleteTail (insertAtTail l v)).2.length = l.length := by
  obtain ⟨cells, hma, rfl⟩ := hm
  have h1 := modelsA_insertAtTail hma v
  obtain ⟨hv, hm', hl, -⟩ := deleteTail_modelsA h1
  refine ⟨hv, ⟨cells, hm', rfl⟩, ?_⟩
  rw [hl, insertAtTail_length]
  omega

/-- C8: the Drop loop (repeat delete_head until absent) terminates after
exactly `length` iterations regardless of extra fuel, and leaves length 0,
head and tail absent, with every node of the chain deallocated. -/
theorem c8_drop_spec {T : Type} (l : LinkedList T) (cells : List (Addr × T))
    (hm : ModelsA l cells) :
    ∃ l', dropList l = (l', l.length) ∧
      (∀ fuel, l.length < fuel → dropLoop fuel l = (l', l.length)) ∧
      l'.length = 0 ∧ l'.head = none ∧ l'.tail = none ∧
      (∀ c ∈ cells, l'.heap c.1 = none) := by
  obtain ⟨l', hrun, hm', hnone, -⟩ := dropLoop_spec cells l hm
  have hlen := hm.length_ok
  refine ⟨l', ?_, ?_, ?_, ?_, ?_, hnone⟩
  · rw [dropList, hrun (l.length + 1) (by omega), hlen]
  · intro fuel hf
    rw [hrun fuel (by omega), hlen]
  · simpa using hm'.length_ok
  · exact hm'.chain_ok.2
  · simpa using hm'.tail_ok

/-- C9: delete_ith(0) on the empty list returns the absent marker and
leaves the list unchanged (length 0, head and tail absent). -/
theorem c9_deleteIth_empty {T : Type} (l : LinkedList T) (hm : Models l []) :
    deleteIth l 0 = .ok (none, l) ∧ l.length = 0 ∧ l.head = none ∧
    l.tail = none := by
  obtain ⟨cells, hma, hmap⟩ := hm
  have hcells : cells = [] := by
    cases cells with
    | nil => rfl
    | cons c cs => simp at hmap
  subst hcells
  have hlen : l.length = 0 := by simpa using hma.length_ok
  have hhead : l.head = none := hma.chain_ok.2
  have htail : l.tail = none := by simpa using hma.tail_ok
  refine ⟨?_, hlen, hhead, htail⟩
  rw [deleteIth, if_neg (by omega), if_pos (Or.inl rfl), deleteHead, if_pos hlen]

/-- C10: for any sequence of values inserted into a fresh binary search
tree, search finds exactly the inserted values. -/
theorem c10_bst_search_insert {T : Type} [LinearOrder T] (vs : List T) (v : T) :
    (BinarySearchTree.insertAll BinarySearchTree.newTree vs).search v = true ↔
      v ∈ vs := by
  have hwf : (BinarySearchTree.newTree (T := T)).WellFormed := ⟨rfl, rfl⟩
  rw [search_correct _ (wellFormed_insertAll vs _ hwf) v,
    mem_elems_insertAll vs _ v]
  simp [BinarySearchTree.newTree, elems_def]

/-! ### Witnesses -/

theorem models_nil_nat : Models (newList (T := Nat)) [] := ⟨[], modelsA_newList, rfl⟩

theorem modelsA_one : ModelsA (insertAtTail (newList (T := Nat)) 5) [(0, 5)] := by
  simpa [newList] using modelsA_insertAtTail (modelsA_newList (T := Nat)) 5

theorem models_one : Models (insertAtTail (newList (T := Nat)) 5) [5] :=
  ⟨[(0, 5)], modelsA_one, rfl⟩

/-- Witness for C2 at the empty list with index 1. -/
theorem c2_witness :
    ((∃ e, insertAtIth (newList (T := Nat)) 1 7 = .error e) ↔
      (newList (T := Nat)).length < 1) ∧
    ((∃ e, deleteIth (newList (T := Nat)) 1 = .error e) ↔
      (newList (T := Nat)).length < 1) ∧
    (∀ e, insertAtIth (newList (T := Nat)) 1 7 = .error e → e = newList) ∧
    (∀ e, deleteIth (newList (T := Nat)) 1 = .error e → e = newList) :=
  c2_outOfBounds_iff _ [] 1 7 models_nil_nat

/-- Witness for C3 at the one-element list [5] with index 1. -/
theorem c3_witness :
    Models (insertAtTail (newList (T := Nat)) 5) [5] ∧ 1 ≤ ([5] : List Nat).length ∧
    ∃ l', insertAtIth (insertAtTail (newList (T := Nat)) 5) 1 9 = .ok l' ∧
      Models l' (insertIdxFn 1 9 [5]) ∧
      l'.length = (insertAtTail (newList (T := Nat)) 5).length + 1 :=
  ⟨models_one, by decide,
    c3_insertAtIth_success _ [5] 1 9 models_one (by decide)⟩

/-- Witness for C4 at the one-element list [5]. -/
theorem c4_witness :
    ([5] : List Nat) ≠ [] ∧
    (deleteIth (insertAtTail (newList (T := Nat)) 5) ([5] : List Nat).length
        = .ok (deleteTail (insertAtTail (newList (T := Nat)) 5)) ∧
      (deleteTail (insertAtTail (newList (T := Nat)) 5)).1 = ([5] : List Nat).getLast? ∧
      (deleteTail (insertAtTail (newList (T := Nat)) 5)).2.length
        = ([5] : List Nat).length - 1 ∧
      deleteIth (insertAtTail (newList (T := Nat)) 5) 0
        = .ok (deleteHead (insertAtTail (newList (T := Nat)) 5))) :=
  ⟨by decide, c4_deleteIth_boundary _ [5] models_one (by decide)⟩

/-- Witness for C5 at the one-element list [5] with index 0. -/
theorem c5_witness :
    ((0 : Int) < 0 ∨ (([5] : List Nat).length : Int) ≤ 0 →
      getVal (insertAtTail (newList (T := Nat)) 5) 0 = none) ∧
    (∀ k : Nat, (0 : Int) = (k : Int) → k < ([5] : List Nat).length →
      getVal (insertAtTail (newList (T := Nat)) 5) 0 = ([5] : List Nat).get? k) ∧
    (∀ fuel, (insertAtTail (newList (T := Nat)) 5).length < fuel →
      getIthNode (insertAtTail (newList (T := Nat)) 5).heap fuel
          (insertAtTail (newList (T := Nat)) 5).head 0
        = getIthNode (insertAtTail (newList (T := Nat)) 5).heap
          ((insertAtTail (newList (T := Nat)) 5).length + 1)
          (insertAtTail (newList (T := Nat)) 5).head 0) :=
  c5_get_spec _ [5] models_one 0

/-- Witness for C6 at the one-element list [5]. -/
theorem c6_witness :
    ((deleteHead (insertAtTail (newList (T := Nat)) 5)).1 = none ↔
      ([5] : List Nat) = []) ∧
    (([5] : List Nat) = [] →
      deleteHead (insertAtTail (newList (T := Nat)) 5)
        = (none, insertAtTail (newList (T := Nat)) 5)) ∧
    (∀ v rest, ([5] : List Nat) = v :: rest →
      (deleteHead (insertAtTail (newList (T := Nat)) 5)).1 = some v ∧
      Models (deleteHead (insertAtTail (newList (T := Nat)) 5)).2 rest ∧
      (deleteHead (insertAtTail (newList (T := Nat)) 5)).2.length
        = (insertAtTail (newList (T := Nat)) 5).length - 1 ∧
      (∃ a0 n0, (insertAtTail (newList (T := Nat)) 5).head = some a0 ∧
        (insertAtTail (newList (T := Nat)) 5).heap a0 = some n0 ∧
        (deleteHead (insertAtTail (newList (T := Nat)) 5)).2.head = n0.next) ∧
      (rest = [] →
        (deleteHead (insertAtTail (newList (T := Nat)) 5)).2.tail = none) ∧
      (rest ≠ [] → ∃ a1 n1,
        (deleteHead (insertAtTail (newList (T := Nat)) 5)).2.head = some a1 ∧
        (deleteHead (insertAtTail (newList (T := Nat)) 5)).2.heap a1 = some n1 ∧
        n1.prev = none)) :=
  c6_deleteHead_spec _ [5] models_one

/-- Witness for C7 at the empty list with value 5. -/
theorem c7_witness :
    (deleteTail (insertAtTail (newList (T := Nat)) 5)).1 = some 5 ∧
    Models (deleteTail (insertAtTail (newList (T := Nat)) 5)).2 [] ∧
    (deleteTail (insertAtTail (newList (T := Nat)) 5)).2.length
      = (newList (T := Nat)).length :=
  c7_tail_roundtrip _ [] 5 models_nil_nat

/-- Witness for C8 at the one-element list [5]. -/
theorem c8_witness :
    ∃ l', dropList (insertAtTail (newList (T := Nat)) 5)
        = (l', (insertAtTail (newList (T := Nat)) 5).length) ∧
      (∀ fuel, (insertAtTail (newList (T := Nat)) 5).length < fuel →
        dropLoop fuel (insertAtTail (newList (T := Nat)) 5)
          = (l', (insertAtTail (newList (T := Nat)) 5).length)) ∧
      l'.length = 0 ∧ l'.head = none ∧ l'.tail = none ∧
      (∀ c ∈ ([(0, 5)] : List (Addr × Nat)), l'.heap c.1 = none) :=
  c8_drop_spec _ [(0, 5)] modelsA_one

/-- Witness for C9 at the freshly constructed empty list. -/
theorem c9_witness :
    deleteIth (newList (T := Nat)) 0 = .ok (none, newList (T := Nat)) ∧
    (newList (T := Nat)).length = 0 ∧ (newList (T := Nat)).head = none ∧
    (newList (T := Nat)).tail = none :=
  c9_deleteIth_empty _ models_nil_nat

/-- Witness for C10 at the inserted sequence [3, 1, 2] and lookup value 2. -/
theorem c10_witness :
    (BinarySearchTree.insertAll BinarySearchTree.newTree [3, 1, 2]).search 2 = true ↔
      (2 : Nat) ∈ [3, 1, 2] :=
  c10_bst_search_insert [3, 1, 2] 2

end RustAlgo
